import Mathlib

/-!
# gpio_curl.c: a shallow embedding and its properties

The program drives one GPIO line through a sysfs-like directory and reports the
level it read back with one HTTP GET.  Everything the program does to the
outside world goes through system and library calls (`open`, `write`, `read`,
`access`, `curl_easy_perform`, ...).  The embedding keeps the program's own
control flow and data flow and leaves the outside world abstract:

* a `Call` is one request to the outside world, a `Ret` its answer;
* the outside world is any transition function `os : σ → Call → Ret × σ` on any
  state type `σ`;
* a `World` pairs the state of the outside world with the log of the calls made
  so far, in the order they were made, each with its answer.

C strings are lists of characters, one character per byte, without the
terminator.  An `int` is an `Int`; the one place where the program does
arithmetic on machine integers, `off += (size_t)w` in `write_all`, is taken
modulo `2 ^ 64`.  Console output (`printf`, `fprintf`, `perror`) does not
influence control flow and is left out.  The one loop of the program, in
`write_all`, is modelled with a fuel argument: `none` means the loop was still
running when the fuel ran out.
-/

namespace GpioCurl

/-! ## The outside world -/

/-- A C string: its bytes before the terminator. -/
abbrev CStr := List Char

/-- How a file is opened: `O_RDONLY`, `O_WRONLY`, or `O_WRONLY | O_CREAT` with a mode. -/
inductive OpenHow where
  | rdonly
  | wronly
  | wronly_creat (mode : Nat)
  deriving DecidableEq

/-- The four options `send_state_http` sets on its curl handle. -/
inductive CurlOpt where
  | url (u : CStr)
  | followlocation (v : Int)
  | useragent (s : CStr)
  | timeout (v : Int)
  deriving DecidableEq

/-- One request of the program to the outside world. `write fd buf` offers the bytes
`buf` (the C call's pointer and count together); `read fd count` asks for at most
`count` bytes; `lseek fd off` is `lseek(fd, off, SEEK_SET)`; `access path` is
`access(path, F_OK)`. -/
inductive Call where
  | open (path : CStr) (how : OpenHow)
  | ftruncate (fd : Int) (len : Nat)
  | lseek (fd : Int) (off : Nat)
  | write (fd : Int) (buf : List Char)
  | fsync (fd : Int)
  | close (fd : Int)
  | read (fd : Int) (count : Nat)
  | access (path : CStr)
  | usleep (usec : Nat)
  | curl_global_init
  | curl_easy_init
  | curl_easy_setopt (handle : Int) (opt : CurlOpt)
  | curl_easy_perform (handle : Int)
  | curl_easy_getinfo_response_code (handle : Int)
  | curl_easy_cleanup (handle : Int)
  | curl_global_cleanup
  deriving DecidableEq

/-- The answer to a call: the returned integer (a descriptor, a count, a status, a
handle with 0 for `NULL`), and for `read` the bytes delivered into the buffer. -/
structure Ret where
  val : Int
  data : List Char
  deriving DecidableEq

/-- The state of the outside world together with the log of all calls made so far. -/
structure World (σ : Type) where
  st : σ
  log : List (Call × Ret)
  deriving DecidableEq

/-- Performs one call: asks the outside world, records call and answer in the log. -/
def sys {σ : Type} (os : σ → Call → Ret × σ) (c : Call) (w : World σ) : Ret × World σ :=
  ((os w.st c).1, { st := (os w.st c).2, log := w.log ++ [(c, (os w.st c).1)] })

/-! ## Constants and formatting -/

/-- The macro `DEF_SYSFS_BASE`. -/
def DEF_SYSFS_BASE : CStr := "/sys/class/gpio".toList

/-- The macro `BUF`. -/
def BUF : Nat := 256

/-- The largest `size_t` plus one. -/
def SIZE_MOD : Nat := 2 ^ 64

/-- What `snprintf(buf, size, ...)` leaves in `buf` when the formatted text is `s`:
at most `size - 1` bytes of it. -/
def snprintf (size : Nat) (s : CStr) : CStr := s.take (size - 1)

/-- The conversion `%d` of an `int`. -/
def fmt_d (i : Int) : CStr := (toString i).toList

/-- The library function `strlen`. -/
def strlen (s : CStr) : Nat := s.length

/-! ## The program -/

/-- The loop of `write_all`, entered with the current value of `off`. -/
def write_all_loop {σ : Type} (os : σ → Call → Ret × σ) (fd : Int) (s : CStr) (n : Nat) :
    Nat → Nat → World σ → Option (Int × World σ)
  | 0, off, w => if off < n then none else some (0, w)
  | fuel + 1, off, w =>
    if off < n then
      let r := sys os (Call.write fd ((s.drop off).take (n - off))) w
      if r.1.val < 0 then some (-1, r.2)
      else write_all_loop os fd s n fuel ((off + r.1.val.toNat) % SIZE_MOD) r.2
    else some (0, w)

/-- The function `write_all`. -/
def write_all {σ : Type} (os : σ → Call → Ret × σ) (fuel : Nat) (fd : Int) (s : CStr) (n : Nat)
    (w : World σ) : Option (Int × World σ) :=
  write_all_loop os fd s n fuel 0 w

/-- The function `write_text_file`. -/
def write_text_file {σ : Type} (os : σ → Call → Ret × σ) (fuel : Nat) (path text : CStr)
    (w : World σ) : Option (Int × World σ) :=
  let o := sys os (Call.open path (OpenHow.wronly_creat 0o644)) w
  let fd := o.1.val
  if fd < 0 then some (-1, o.2)
  else
    let t := sys os (Call.ftruncate fd 0) o.2
    let l := sys os (Call.lseek fd 0) t.2
    let len := strlen text
    match write_all os fuel fd text len l.2 with
    | none => none
    | some (rc, w1) =>
      if rc < 0 then some (-1, (sys os (Call.close fd) w1).2)
      else
        let f := sys os (Call.fsync fd) w1
        let c := sys os (Call.close fd) f.2
        some (0, c.2)

/-- The function `read_text_file`. `out` is the buffer as the caller passed it; the
result carries the buffer afterwards: untouched when the file cannot be opened or
read, else the `n` bytes delivered followed by the terminator. -/
def read_text_file {σ : Type} (os : σ → Call → Ret × σ) (path : CStr) (out : List Char) (cap : Nat)
    (w : World σ) : (Int × List Char) × World σ :=
  let o := sys os (Call.open path OpenHow.rdonly) w
  let fd := o.1.val
  if fd < 0 then ((-1, out), o.2)
  else
    let l := sys os (Call.lseek fd 0) o.2
    let r := sys os (Call.read fd (if cap ≠ 0 then cap - 1 else 0)) l.2
    let n := r.1.val
    if n < 0 then ((-1, out), (sys os (Call.close fd) r.2).2)
    else
      let out1 := r.1.data.take n.toNat ++ ['\x00']
      ((0, out1), (sys os (Call.close fd) r.2).2)

/-- The function `export_if_needed`. -/
def export_if_needed {σ : Type} (os : σ → Call → Ret × σ) (fuel : Nat) (base : CStr) (pin : Int)
    (w : World σ) : Option (Int × World σ) :=
  let dir := snprintf BUF (base ++ "/gpio".toList ++ fmt_d pin)
  let a := sys os (Call.access dir) w
  if a.1.val = 0 then some (0, a.2)
  else
    let exp := snprintf BUF (base ++ "/export".toList)
    let num := snprintf 32 (fmt_d pin)
    let o := sys os (Call.open exp OpenHow.wronly) a.2
    let fd := o.1.val
    if fd < 0 then some (0, o.2)
    else
      match write_all os fuel fd num (strlen num) o.2 with
      | none => none
      | some (rc, w1) =>
        if rc < 0 then some (-1, (sys os (Call.close fd) w1).2)
        else
          let c := sys os (Call.close fd) w1
          let u := sys os (Call.usleep (50 * 1000)) c.2
          some (0, u.2)

/-- The function `set_direction`. -/
def set_direction {σ : Type} (os : σ → Call → Ret × σ) (fuel : Nat) (base : CStr) (pin : Int)
    (dir : CStr) (w : World σ) : Option (Int × World σ) :=
  let p := snprintf BUF (base ++ "/gpio".toList ++ fmt_d pin ++ "/direction".toList)
  write_text_file os fuel p dir w

/-- The function `get_value`. `out` is the value of `*out` before the call, `b` the
content of the local buffer before the call (it is not initialised); the result
carries the return code and the value of `*out` afterwards. -/
def get_value {σ : Type} (os : σ → Call → Ret × σ) (base : CStr) (pin : Int) (out : Int)
    (b : List Char) (w : World σ) : (Int × Int) × World σ :=
  let p := snprintf BUF (base ++ "/gpio".toList ++ fmt_d pin ++ "/value".toList)
  let r := read_text_file os p b 16 w
  if r.1.1 ≠ 0 then ((-1, out), r.2)
  else ((0, if r.1.2.head? = some '1' then 1 else 0), r.2)

/-- The function `set_value`. -/
def set_value {σ : Type} (os : σ → Call → Ret × σ) (fuel : Nat) (base : CStr) (pin : Int)
    (v : Int) (w : World σ) : Option (Int × World σ) :=
  let p := snprintf BUF (base ++ "/gpio".toList ++ fmt_d pin ++ "/value".toList)
  write_text_file os fuel p (if v ≠ 0 then "1\n".toList else "0\n".toList) w

/-- The function `send_state_http`. A handle is an integer, 0 for `NULL`;
`CURLE_OK` is 0. -/
def send_state_http {σ : Type} (os : σ → Call → Ret × σ) (base_url : CStr) (pin : Int)
    (state_high : Int) (w : World σ) : Int × World σ :=
  let url := snprintf 512 (base_url ++ "?pin=".toList ++ fmt_d pin ++ "&state=".toList ++
    (if state_high ≠ 0 then "high".toList else "low".toList))
  let g := sys os Call.curl_global_init w
  if g.1.val ≠ 0 then (-1, g.2)
  else
    let e := sys os Call.curl_easy_init g.2
    let curl := e.1.val
    if curl = 0 then (-1, (sys os Call.curl_global_cleanup e.2).2)
    else
      let o1 := sys os (Call.curl_easy_setopt curl (CurlOpt.url url)) e.2
      let o2 := sys os (Call.curl_easy_setopt curl (CurlOpt.followlocation 1)) o1.2
      let o3 := sys os (Call.curl_easy_setopt curl (CurlOpt.useragent "gpio-curl/1.0".toList)) o2.2
      let o4 := sys os (Call.curl_easy_setopt curl (CurlOpt.timeout 5)) o3.2
      let res := sys os (Call.curl_easy_perform curl) o4.2
      if res.1.val ≠ 0 then
        let c := sys os (Call.curl_easy_cleanup curl) res.2
        (-1, (sys os Call.curl_global_cleanup c.2).2)
      else
        let i := sys os (Call.curl_easy_getinfo_response_code curl) res.2
        let c := sys os (Call.curl_easy_cleanup curl) i.2
        (0, (sys os Call.curl_global_cleanup c.2).2)

/-- The variable `pin` of `main`: `atoi(argv[1])` when there is a first argument
(`pin_arg`), else 22. -/
def main_pin (pin_arg : Option Int) : Int :=
  match pin_arg with
  | some p => p
  | none => 22

/-- The variable `http_base` of `main`: `argv[2]` when there is a second argument
(`url_arg`), else the built-in URL. -/
def main_http_base (url_arg : Option CStr) : CStr :=
  match url_arg with
  | some u => u
  | none => "http://meinserver.de/gpio".toList

/-- The variable `base` of `main`: the value of `SYSFS_GPIO_BASE` (`env_base`) when it
is set and not empty, else `DEF_SYSFS_BASE`. -/
def main_base (env_base : Option CStr) : CStr :=
  match env_base with
  | some e => if e = [] then DEF_SYSFS_BASE else e
  | none => DEF_SYSFS_BASE

/-- The function `main`. `b1` and `b2` are the contents of the uninitialised local
buffers of the two `get_value` calls. The result is the exit status and the world at
exit. -/
def main {σ : Type} (os : σ → Call → Ret × σ) (fuel : Nat) (pin_arg : Option Int)
    (url_arg : Option CStr) (env_base : Option CStr) (b1 b2 : List Char) (w : World σ) :
    Option (Int × World σ) :=
  let pin := main_pin pin_arg
  let http_base := main_http_base url_arg
  let base := main_base env_base
  match export_if_needed os fuel base pin w with
  | none => none
  | some (_, w1) =>
    match set_direction os fuel base pin "in".toList w1 with
    | none => none
    | some (_, w2) =>
      let val_in : Int := 0
      let g1 := get_value os base pin val_in b1 w2
      match set_direction os fuel base pin "out".toList g1.2 with
      | none => none
      | some (rc4, w4) =>
        if rc4 ≠ 0 then some (1, w4)
        else
          match set_value os fuel base pin 1 w4 with
          | none => none
          | some (rc5, w5) =>
            if rc5 ≠ 0 then some (1, w5)
            else
              let val_out : Int := 0
              let g2 := get_value os base pin val_out b2 w5
              let h := send_state_http os http_base pin (if g2.1.2 ≠ 0 then 1 else 0) g2.2
              some (0, h.2)

/-! ## Reading the log -/

/-- The bytes one logged call got accepted: for a `write` answered with a count, the
first that many of the bytes it offered; nothing for an error or any other call. -/
def accepted (e : Call × Ret) : List Char :=
  match e.1 with
  | Call.write _ buf => buf.take e.2.val.toNat
  | _ => []

/-- The bytes accepted by a sequence of logged calls, in call order. -/
def accepted_bytes : List (Call × Ret) → List Char
  | [] => []
  | e :: es => accepted e ++ accepted_bytes es

/-- Whether a logged call is one of the file operations on descriptor `fd`. -/
def on_fd (fd : Int) (e : Call × Ret) : Bool :=
  match e.1 with
  | Call.ftruncate f _ => f = fd
  | Call.lseek f _ => f = fd
  | Call.write f _ => f = fd
  | Call.fsync f => f = fd
  | Call.close f => f = fd
  | Call.read f _ => f = fd
  | _ => false

/-- The paths of the `open` calls in a log, in call order. -/
def opened_paths : List (Call × Ret) → List CStr
  | [] => []
  | (Call.open path _, _) :: es => path :: opened_paths es
  | _ :: es => opened_paths es

/-- The HTTP transfers in a log: for every `curl_easy_perform`, the URL last set on
its handle (`none` when no URL was set), in call order. `url_of` gives the URL set on
each handle before the log starts. -/
def http_gets_from (url_of : Int → Option CStr) : List (Call × Ret) → List (Option CStr)
  | [] => []
  | (Call.curl_easy_setopt h (CurlOpt.url u), _) :: es =>
    http_gets_from (fun k => if k = h then some u else url_of k) es
  | (Call.curl_easy_perform h, _) :: es => url_of h :: http_gets_from url_of es
  | _ :: es => http_gets_from url_of es

/-- The HTTP transfers in a log that starts with no URL set on any handle. -/
def http_gets (es : List (Call × Ret)) : List (Option CStr) :=
  http_gets_from (fun _ => none) es

/-- Whether a logged call is a call into libcurl. -/
def is_curl (e : Call × Ret) : Bool :=
  match e.1 with
  | Call.curl_global_init => true
  | Call.curl_easy_init => true
  | Call.curl_easy_setopt _ _ => true
  | Call.curl_easy_perform _ => true
  | Call.curl_easy_getinfo_response_code _ => true
  | Call.curl_easy_cleanup _ => true
  | Call.curl_global_cleanup => true
  | _ => false

/-- The log of `w'` is the log of `w` followed by calls that all satisfy `P`. -/
def extends_by {σ : Type} (P : Call × Ret → Prop) (w w' : World σ) : Prop :=
  ∃ evs, w'.log = w.log ++ evs ∧ ∀ e ∈ evs, P e

/-! ## Some outside worlds -/

/-- An outside world without state whose `write` accepts up to `k` bytes of what it
is offered and whose other calls answer 0. -/
def chunked (k : Nat) (_ : Unit) (c : Call) : Ret × Unit :=
  match c with
  | Call.write _ buf => (⟨min k buf.length, []⟩, ())
  | _ => (⟨0, []⟩, ())

/-- An outside world that answers from a script: each call takes the next answer,
and 0 once the script is used up. -/
def scripted (script : List Ret) (_ : Call) : Ret × List Ret :=
  match script with
  | [] => (⟨0, []⟩, [])
  | r :: rest => (r, rest)

/-- A script in which the export file cannot be opened, the pin reads "0\n" as input,
"out" is written, and the write of the level fails. -/
def script_value_write_fails : List Ret :=
  [⟨-1, []⟩, ⟨-1, []⟩,
   ⟨3, []⟩, ⟨0, []⟩, ⟨0, []⟩, ⟨2, []⟩, ⟨0, []⟩, ⟨0, []⟩,
   ⟨3, []⟩, ⟨0, []⟩, ⟨2, "0\n".toList⟩, ⟨0, []⟩,
   ⟨3, []⟩, ⟨0, []⟩, ⟨0, []⟩, ⟨3, []⟩, ⟨0, []⟩, ⟨0, []⟩,
   ⟨3, []⟩, ⟨0, []⟩, ⟨0, []⟩, ⟨-1, []⟩, ⟨0, []⟩]

/-- A script in which the pin directory exists, the pin reads "1\n" as input, and the
direction file cannot be opened for "out". -/
def script_out_direction_fails : List Ret :=
  [⟨0, []⟩,
   ⟨3, []⟩, ⟨0, []⟩, ⟨0, []⟩, ⟨2, []⟩, ⟨0, []⟩, ⟨0, []⟩,
   ⟨3, []⟩, ⟨0, []⟩, ⟨2, "1\n".toList⟩, ⟨0, []⟩,
   ⟨-1, []⟩]

/-- A script in which the pin reads "1\n" as input, "out" and the level are written,
the value file cannot be opened for the verification read, and the HTTP transfer
succeeds on handle 7 with status 200. -/
def script_verify_fails : List Ret :=
  [⟨0, []⟩,
   ⟨3, []⟩, ⟨0, []⟩, ⟨0, []⟩, ⟨2, []⟩, ⟨0, []⟩, ⟨0, []⟩,
   ⟨3, []⟩, ⟨0, []⟩, ⟨2, "1\n".toList⟩, ⟨0, []⟩,
   ⟨3, []⟩, ⟨0, []⟩, ⟨0, []⟩, ⟨3, []⟩, ⟨0, []⟩, ⟨0, []⟩,
   ⟨3, []⟩, ⟨0, []⟩, ⟨0, []⟩, ⟨2, []⟩, ⟨0, []⟩, ⟨0, []⟩,
   ⟨-1, []⟩,
   ⟨0, []⟩, ⟨7, []⟩, ⟨0, []⟩, ⟨0, []⟩, ⟨0, []⟩, ⟨0, []⟩, ⟨0, []⟩, ⟨200, []⟩, ⟨0, []⟩, ⟨0, []⟩]

/-- A script in which every step succeeds: the pin directory exists, the pin reads "0\n"
as input, "out" and the level are written, the verification read finds "1\n", and the
HTTP transfer succeeds on handle 7 with status 200. -/
def script_all_ok : List Ret :=
  [⟨0, []⟩,
   ⟨3, []⟩, ⟨0, []⟩, ⟨0, []⟩, ⟨2, []⟩, ⟨0, []⟩, ⟨0, []⟩,
   ⟨3, []⟩, ⟨0, []⟩, ⟨2, "0\n".toList⟩, ⟨0, []⟩,
   ⟨3, []⟩, ⟨0, []⟩, ⟨0, []⟩, ⟨3, []⟩, ⟨0, []⟩, ⟨0, []⟩,
   ⟨3, []⟩, ⟨0, []⟩, ⟨0, []⟩, ⟨2, []⟩, ⟨0, []⟩, ⟨0, []⟩,
   ⟨3, []⟩, ⟨0, []⟩, ⟨2, "1\n".toList⟩, ⟨0, []⟩,
   ⟨0, []⟩, ⟨7, []⟩, ⟨0, []⟩, ⟨0, []⟩, ⟨0, []⟩, ⟨0, []⟩, ⟨0, []⟩, ⟨200, []⟩, ⟨0, []⟩, ⟨0, []⟩]

/-! ## A store of ordinary files -/

/-- An open file description of the file store: the path of the file and the current
offset. -/
structure OpenFile where
  path : CStr
  pos : Nat

/-- The state of an in-memory store of ordinary files that keeps what is written: the
content of every file that exists, the directories that exist, the open descriptors,
the next descriptor to hand out, and a script for the coming `write` calls (a negative
entry makes the call fail, an entry `k ≥ 0` makes it accept at most `k` bytes, and
with the script used up a call accepts all it is offered). Permissions are not
modelled. -/
structure FS where
  files : CStr → Option (List Char)
  dirs : CStr → Bool
  fds : Int → Option OpenFile
  next_fd : Nat
  short : List Int

/-- The content of a file after `bytes` are written at offset `pos`. -/
def write_at (content : List Char) (pos : Nat) (bytes : List Char) : List Char :=
  content.take pos ++ List.replicate (pos - content.length) '\x00' ++ bytes ++
    content.drop (pos + bytes.length)

/-- The content of a file after it is truncated or extended to `len` bytes. -/
def resize (content : List Char) (len : Nat) : List Char :=
  content.take len ++ List.replicate (len - content.length) '\x00'

/-- The file store as an outside world. `open` fails on a missing file unless it is
asked to create it; the file calls fail on a descriptor that is not open; the other
calls answer 0. -/
def memfs (s : FS) (c : Call) : Ret × FS :=
  match c with
  | Call.open path how =>
    match s.files path, how with
    | none, OpenHow.wronly_creat _ =>
      (⟨s.next_fd, []⟩,
        { s with
          files := fun p => if p = path then some [] else s.files p
          fds := fun k => if k = s.next_fd then some ⟨path, 0⟩ else s.fds k
          next_fd := s.next_fd + 1 })
    | none, _ => (⟨-1, []⟩, s)
    | some _, _ =>
      (⟨s.next_fd, []⟩,
        { s with
          fds := fun k => if k = s.next_fd then some ⟨path, 0⟩ else s.fds k
          next_fd := s.next_fd + 1 })
  | Call.ftruncate fd len =>
    match s.fds fd with
    | none => (⟨-1, []⟩, s)
    | some f =>
      (⟨0, []⟩,
        { s with
          files := fun p => if p = f.path then some (resize ((s.files f.path).getD []) len)
            else s.files p })
  | Call.lseek fd off =>
    match s.fds fd with
    | none => (⟨-1, []⟩, s)
    | some f =>
      (⟨off, []⟩, { s with fds := fun k => if k = fd then some ⟨f.path, off⟩ else s.fds k })
  | Call.write fd buf =>
    match s.fds fd with
    | none => (⟨-1, []⟩, s)
    | some f =>
      match s.short with
      | [] =>
        (⟨buf.length, []⟩,
          { s with
            files := fun p => if p = f.path then
              some (write_at ((s.files f.path).getD []) f.pos buf) else s.files p
            fds := fun k => if k = fd then some ⟨f.path, f.pos + buf.length⟩ else s.fds k })
      | r :: rest =>
        if r < 0 then (⟨-1, []⟩, { s with short := rest })
        else
          (⟨(buf.take r.toNat).length, []⟩,
            { s with
              files := fun p => if p = f.path then
                some (write_at ((s.files f.path).getD []) f.pos (buf.take r.toNat))
                else s.files p
              fds := fun k => if k = fd then some ⟨f.path, f.pos + (buf.take r.toNat).length⟩
                else s.fds k
              short := rest })
  | Call.read fd count =>
    match s.fds fd with
    | none => (⟨-1, []⟩, s)
    | some f =>
      (⟨((((s.files f.path).getD []).drop f.pos).take count).length,
          (((s.files f.path).getD []).drop f.pos).take count⟩,
        { s with
          fds := fun k => if k = fd then
            some ⟨f.path, f.pos + ((((s.files f.path).getD []).drop f.pos).take count).length⟩
            else s.fds k })
  | Call.fsync fd =>
    match s.fds fd with
    | none => (⟨-1, []⟩, s)
    | some _ => (⟨0, []⟩, s)
  | Call.close fd =>
    match s.fds fd with
    | none => (⟨-1, []⟩, s)
    | some _ => (⟨0, []⟩, { s with fds := fun k => if k = fd then none else s.fds k })
  | Call.access path =>
    if (s.files path).isSome || s.dirs path then (⟨0, []⟩, s) else (⟨-1, []⟩, s)
  | _ => (⟨0, []⟩, s)

/-- A file store in which, under the base path "/bbb...b" of 253 bytes, the directory
of pin 22 exists, the file `e` exists, nothing else does, and the next `write` fails. -/
def fs_long_base : FS where
  files := fun p => if p = ('/' :: List.replicate 252 'b') ++ "/e".toList then some [] else none
  dirs := fun p => p = ('/' :: List.replicate 252 'b') ++ "/gpio22".toList
  fds := fun _ => none
  next_fd := 3
  short := [-1]

/-- A file store holding only the value file of pin 22 under `/tmp/mockgpio`, with the
seven bytes "garbage" in it, whose `write` calls accept one byte at a time. -/
def fs_mock : FS where
  files := fun p => if p = "/tmp/mockgpio/gpio22/value".toList then some "garbage".toList
    else none
  dirs := fun p => p = "/tmp/mockgpio".toList || p = "/tmp/mockgpio/gpio22".toList
  fds := fun _ => none
  next_fd := 3
  short := [1, 1, 1]

/-! ## Properties of `write_all` -/

theorem accepted_bytes_append (xs ys : List (Call × Ret)) :
    accepted_bytes (xs ++ ys) = accepted_bytes xs ++ accepted_bytes ys := by
  induction xs with
  | nil => rfl
  | cons x xs ih => simp [accepted_bytes, ih]

theorem write_all_loop_done {σ : Type} (os : σ → Call → Ret × σ) (fd : Int) (s : CStr) (n : Nat)
    (fuel off : Nat) (w : World σ) (h : n ≤ off) :
    write_all_loop os fd s n fuel off w = some (0, w) := by
  cases fuel <;> simp [write_all_loop, Nat.not_lt.mpr h]

theorem sys_log {σ : Type} (os : σ → Call → Ret × σ) (c : Call) (w : World σ) :
    (sys os c w).2.log = w.log ++ [(c, (sys os c w).1)] := rfl

theorem sys_fst {σ : Type} (os : σ → Call → Ret × σ) (c : Call) (w : World σ) :
    (sys os c w).1 = (os w.st c).1 := rfl

theorem write_all_loop_spec {σ : Type} (os : σ → Call → Ret × σ) (fd : Int) (s : CStr) (n : Nat)
    (hn : n = s.length) (hsz : n ≤ 2 ^ 63)
    (hss : ∀ st fd buf, (os st (Call.write fd buf)).1.val < 2 ^ 63) :
    ∀ (fuel off : Nat) (w : World σ) (rc : Int) (w' : World σ),
      write_all_loop os fd s n fuel off w = some (rc, w') →
      ∃ evs, w'.log = w.log ++ evs ∧
        (∀ pre e post, evs = pre ++ e :: post →
          e.1 = Call.write fd (s.drop (off + (accepted_bytes pre).length))) ∧
        (rc = 0 ∨ rc = -1) ∧
        (rc = 0 → accepted_bytes evs = s.drop off) ∧
        (rc = -1 ↔ ∃ e ∈ evs, e.2.val < 0) := by
  intro fuel
  induction fuel with
  | zero =>
    intro off w rc w' h
    by_cases hlt : off < n
    · simp [write_all_loop, hlt] at h
    · simp only [write_all_loop, hlt, if_false, Option.some.injEq, Prod.mk.injEq] at h
      obtain ⟨rfl, rfl⟩ := h
      refine ⟨[], by simp, ?_, Or.inl rfl, ?_, ?_⟩
      · intro pre e post hp
        simp at hp
      · intro _
        simp [accepted_bytes, List.drop_eq_nil_of_le (by omega : s.length ≤ off)]
      · simp
  | succ fuel ih =>
    intro off w rc w' h
    by_cases hlt : off < n
    · have hbuf : (s.drop off).take (n - off) = s.drop off := by
        apply List.take_of_length_le
        simp [hn]
      simp only [write_all_loop, hlt, if_true, hbuf] at h
      by_cases hneg : (sys os (Call.write fd (s.drop off)) w).1.val < 0
      · simp only [hneg, if_true, Option.some.injEq, Prod.mk.injEq] at h
        obtain ⟨rfl, rfl⟩ := h
        refine ⟨[(Call.write fd (s.drop off), (sys os (Call.write fd (s.drop off)) w).1)],
          sys_log _ _ _, ?_, Or.inr rfl, ?_, ?_⟩
        · intro pre e post hp
          cases pre with
          | nil =>
            simp at hp
            simp [← hp.1, accepted_bytes]
          | cons a pre =>
            simp at hp
        · intro h0
          simp at h0
        · simp [hneg]
      · simp only [hneg, if_false] at h
        have hb := hss w.st fd (s.drop off)
        rw [← sys_fst] at hb
        generalize hr : sys os (Call.write fd (s.drop off)) w = r at h hneg hb
        have hlog : r.2.log = w.log ++ [(Call.write fd (s.drop off), r.1)] := by
          rw [← hr]; exact sys_log _ _ _
        have hmod : (off + r.1.val.toNat) % SIZE_MOD = off + r.1.val.toNat := by
          apply Nat.mod_eq_of_lt
          have : r.1.val.toNat < 2 ^ 63 := by omega
          simp only [SIZE_MOD]
          omega
        rw [hmod] at h
        by_cases hle : r.1.val.toNat ≤ n - off
        · obtain ⟨evs, hl, hoff, hrc, hacc, hfail⟩ := ih _ _ _ _ h
          have hlen : (accepted (Call.write fd (s.drop off), r.1)).length = r.1.val.toNat := by
            simp [accepted, hn] at hle ⊢
            omega
          refine ⟨(Call.write fd (s.drop off), r.1) :: evs, by simp [hl, hlog], ?_, hrc, ?_, ?_⟩
          · intro pre e post hp
            cases pre with
            | nil =>
              simp at hp
              simp [← hp.1, accepted_bytes]
            | cons a pre =>
              simp only [List.cons_append, List.cons.injEq] at hp
              have := hoff pre e post hp.2
              rw [this, ← hp.1]
              simp only [accepted_bytes, List.length_append, hlen]
              congr 2
              omega
          · intro h0
            rw [accepted_bytes, hacc h0]
            simp only [accepted]
            rw [← List.drop_drop]
            exact List.take_append_drop _ _
          · rw [hfail]
            simp [hneg]
        · have hdone := write_all_loop_done os fd s n fuel (off + r.1.val.toNat) r.2 (by omega)
          rw [hdone] at h
          simp only [Option.some.injEq, Prod.mk.injEq] at h
          obtain ⟨rfl, rfl⟩ := h
          refine ⟨[(Call.write fd (s.drop off), r.1)], hlog, ?_, Or.inl rfl, ?_, ?_⟩
          · intro pre e post hp
            cases pre with
            | nil =>
              simp at hp
              simp [← hp.1, accepted_bytes]
            | cons a pre =>
              simp at hp
          · intro _
            simp only [accepted_bytes, accepted, List.append_nil]
            apply List.take_of_length_le
            simp [hn] at hle ⊢
            omega
          · simp [hneg]
    · simp only [write_all_loop, hlt, if_false, Option.some.injEq, Prod.mk.injEq] at h
      obtain ⟨rfl, rfl⟩ := h
      refine ⟨[], by simp, ?_, Or.inl rfl, ?_, ?_⟩
      · intro pre e post hp
        simp at hp
      · intro _
        simp [accepted_bytes, List.drop_eq_nil_of_le (by omega : s.length ≤ off)]
      · simp

/-- C8: full-buffer write. For a text `s` of `n` bytes (`n` within the range of
`ssize_t`) and any outside world whose `write` returns `ssize_t` values, a run of
`write_all` that returns makes only `write` calls on `fd`, each offering exactly the
suffix of `s` after the bytes accepted so far; it returns 0 or -1; when it returns 0
the accepted chunks, concatenated in call order, are exactly `s`; and it returns -1
exactly when some call returned a negative result. -/
theorem write_all_full_buffer {σ : Type} (os : σ → Call → Ret × σ) (fuel : Nat) (fd : Int)
    (s : CStr) (n : Nat) (w w' : World σ) (rc : Int)
    (hn : n = s.length) (hsz : n ≤ 2 ^ 63)
    (hss : ∀ st fd buf, (os st (Call.write fd buf)).1.val < 2 ^ 63)
    (h : write_all os fuel fd s n w = some (rc, w')) :
    ∃ evs, w'.log = w.log ++ evs ∧
      (∀ pre e post, evs = pre ++ e :: post →
        e.1 = Call.write fd (s.drop (accepted_bytes pre).length)) ∧
      (rc = 0 ∨ rc = -1) ∧
      (rc = 0 → accepted_bytes evs = s) ∧
      (rc = -1 ↔ ∃ e ∈ evs, e.2.val < 0) := by
  obtain ⟨evs, h1, h2, h3, h4, h5⟩ := write_all_loop_spec os fd s n hn hsz hss fuel 0 w rc w' h
  refine ⟨evs, h1, ?_, h3, ?_, h5⟩
  · intro pre e post hp
    simpa using h2 pre e post hp
  · intro h0
    simpa using h4 h0

theorem chunked_ssize (k : Nat) (hk : k < 2 ^ 63) (st : Unit) (fd : Int) (buf : List Char) :
    (chunked k st (Call.write fd buf)).1.val < 2 ^ 63 := by
  simp only [chunked]
  omega

/-- C8, at a concrete run: "out" written to a world that takes two bytes per call. -/
theorem write_all_full_buffer_witness :
    write_all (chunked 2) 5 3 "out".toList 3 ⟨(), []⟩
      = some (0, ⟨(), [(Call.write 3 "out".toList, ⟨2, []⟩), (Call.write 3 "t".toList, ⟨1, []⟩)]⟩) ∧
    ∃ evs, [(Call.write 3 "out".toList, (⟨2, []⟩ : Ret)), (Call.write 3 "t".toList, ⟨1, []⟩)]
        = [] ++ evs ∧
      (∀ pre e post, evs = pre ++ e :: post →
        e.1 = Call.write 3 ("out".toList.drop (accepted_bytes pre).length)) ∧
      ((0 : Int) = 0 ∨ (0 : Int) = -1) ∧
      ((0 : Int) = 0 → accepted_bytes evs = "out".toList) ∧
      ((0 : Int) = -1 ↔ ∃ e ∈ evs, e.2.val < 0) :=
  ⟨by decide,
   write_all_full_buffer (chunked 2) 5 3 "out".toList 3 ⟨(), []⟩
     ⟨(), [(Call.write 3 "out".toList, ⟨2, []⟩), (Call.write 3 "t".toList, ⟨1, []⟩)]⟩ 0
     (by decide) (by norm_num)
     (chunked_ssize 2 (by norm_num)) (by decide)⟩

theorem write_all_loop_stuck (s : CStr) (n : Nat) (fd : Int) (hn : 0 < n) :
    ∀ (fuel : Nat) (w : World Unit), write_all_loop (chunked 0) fd s n fuel 0 w = none := by
  intro fuel
  induction fuel with
  | zero => intro w; simp [write_all_loop, hn]
  | succ fuel ih =>
    intro w
    simp only [write_all_loop, hn, if_true]
    have h0 : (sys (chunked 0) (Call.write fd (List.take (n - 0) (List.drop 0 s))) w).1.val = 0 := by
      simp [sys, chunked]
    rw [if_neg (by omega), h0]
    exact ih _

/-- C10 as stated fails: a `write` that always returns the count 0 (non-negative and
no larger than what it was offered) keeps `write_all` in its loop for ever: no amount
of fuel lets the call on the two bytes "1\n" return. -/
theorem write_all_zero_count_never_returns :
    (∀ (st : Unit) (fd : Int) (buf : List Char),
        0 ≤ (chunked 0 st (Call.write fd buf)).1.val ∧
        (chunked 0 st (Call.write fd buf)).1.val ≤ buf.length) ∧
    ¬ ∃ fuel r, write_all (chunked 0) fuel 3 "1\n".toList 2 ⟨(), []⟩ = some r := by
  constructor
  · intro st fd buf
    simp [chunked]
  · rintro ⟨fuel, r, h⟩
    rw [write_all, write_all_loop_stuck _ _ _ (by decide)] at h
    exact Option.noConfusion h

theorem write_all_loop_terminates {σ : Type} (os : σ → Call → Ret × σ) (fd : Int) (s : CStr)
    (n : Nat) (hn : n = s.length) (hsz : n < 2 ^ 64)
    (hprog : ∀ st fd buf, buf ≠ [] →
      (os st (Call.write fd buf)).1.val < 0 ∨
      (0 < (os st (Call.write fd buf)).1.val ∧ (os st (Call.write fd buf)).1.val ≤ buf.length)) :
    ∀ (fuel off : Nat) (w : World σ), off ≤ n → n - off ≤ fuel →
      ∃ rc w' evs, write_all_loop os fd s n fuel off w = some (rc, w') ∧
        w'.log = w.log ++ evs ∧ evs.length ≤ n - off ∧
        (∀ e ∈ evs, ∃ buf, e.1 = Call.write fd buf) ∧
        ((rc = 0 ∧ accepted_bytes evs = s.drop off) ∨ (rc = -1 ∧ ∃ e ∈ evs, e.2.val < 0)) := by
  intro fuel
  induction fuel with
  | zero =>
    intro off w hoff hfuel
    have hge : n ≤ off := by omega
    refine ⟨0, w, [], write_all_loop_done os fd s n 0 off w hge, by simp, by simp, by simp, ?_⟩
    left
    simp [accepted_bytes, List.drop_eq_nil_of_le (by omega : s.length ≤ off)]
  | succ fuel ih =>
    intro off w hoff hfuel
    by_cases hlt : off < n
    · have hbuf : (s.drop off).take (n - off) = s.drop off := by
        apply List.take_of_length_le
        simp [hn]
      have hne : s.drop off ≠ [] := by
        intro h0
        have := congrArg List.length h0
        simp at this
        omega
      simp only [write_all_loop, hlt, if_true, hbuf]
      have hp := hprog w.st fd (s.drop off) hne
      rw [← sys_fst] at hp
      generalize hr : sys os (Call.write fd (s.drop off)) w = r at hp
      have hlog : r.2.log = w.log ++ [(Call.write fd (s.drop off), r.1)] := by
        rw [← hr]; exact sys_log _ _ _
      rcases hp with hneg | ⟨hpos, hle⟩
      · refine ⟨-1, r.2, [(Call.write fd (s.drop off), r.1)], by simp [hneg], hlog, ?_, ?_, ?_⟩
        · simp; omega
        · simp
        · right; simp [hneg]
      · simp only [List.length_drop] at hle
        have hmod : (off + r.1.val.toNat) % SIZE_MOD = off + r.1.val.toNat := by
          apply Nat.mod_eq_of_lt
          simp only [SIZE_MOD]
          omega
        rw [if_neg (by omega), hmod]
        obtain ⟨rc, w', evs, hrun, hl, hcnt, hall, hres⟩ :=
          ih (off + r.1.val.toNat) r.2 (by omega) (by omega)
        refine ⟨rc, w', (Call.write fd (s.drop off), r.1) :: evs, hrun, by simp [hl, hlog],
          ?_, ?_, ?_⟩
        · simp only [List.length_cons]; omega
        · intro e he
          rcases List.mem_cons.mp he with rfl | he
          · exact ⟨_, rfl⟩
          · exact hall e he
        · rcases hres with ⟨h0, hacc⟩ | ⟨h1, e, he, hneg⟩
          · left
            refine ⟨h0, ?_⟩
            rw [accepted_bytes, hacc]
            simp only [accepted]
            rw [← List.drop_drop]
            exact List.take_append_drop _ _
          · right
            exact ⟨h1, e, List.mem_cons_of_mem _ he, hneg⟩
    · have hge : n ≤ off := by omega
      refine ⟨0, w, [], write_all_loop_done os fd s n _ off w hge, by simp, by simp, by simp, ?_⟩
      left
      simp [accepted_bytes, List.drop_eq_nil_of_le (by omega : s.length ≤ off)]

/-- C10, amended: when every `write` call on a non-empty buffer returns either an error
or a positive count no larger than the number of bytes it was offered, `write_all` on a
text of `n` bytes returns within `n` write calls (any fuel of at least `n` is enough),
either with 0 and all bytes of the text accepted, or with -1 after a call that returned
an error. -/
theorem write_all_terminates {σ : Type} (os : σ → Call → Ret × σ) (fd : Int) (s : CStr)
    (n : Nat) (fuel : Nat) (w : World σ) (hn : n = s.length) (hsz : n < 2 ^ 64)
    (hprog : ∀ st fd buf, buf ≠ [] →
      (os st (Call.write fd buf)).1.val < 0 ∨
      (0 < (os st (Call.write fd buf)).1.val ∧ (os st (Call.write fd buf)).1.val ≤ buf.length))
    (hfuel : n ≤ fuel) :
    ∃ rc w' evs, write_all os fuel fd s n w = some (rc, w') ∧
      w'.log = w.log ++ evs ∧ evs.length ≤ n ∧
      (∀ e ∈ evs, ∃ buf, e.1 = Call.write fd buf) ∧
      ((rc = 0 ∧ accepted_bytes evs = s) ∨ (rc = -1 ∧ ∃ e ∈ evs, e.2.val < 0)) := by
  simpa using write_all_loop_terminates os fd s n hn hsz hprog fuel 0 w (Nat.zero_le _)
    (by omega)

theorem chunked_progress (k : Nat) (hk : 0 < k) (st : Unit) (fd : Int) (buf : List Char)
    (hb : buf ≠ []) :
    (chunked k st (Call.write fd buf)).1.val < 0 ∨
      (0 < (chunked k st (Call.write fd buf)).1.val ∧
        (chunked k st (Call.write fd buf)).1.val ≤ buf.length) := by
  right
  have : 0 < buf.length := List.length_pos.mpr hb
  simp only [chunked]
  omega

/-- C10, amended, at a concrete run: one byte accepted per call, two calls for "1\n". -/
theorem write_all_terminates_witness :
    ∃ rc w' evs, write_all (chunked 1) 2 3 "1\n".toList 2 ⟨(), []⟩ = some (rc, w') ∧
      w'.log = [] ++ evs ∧ evs.length ≤ 2 ∧
      (∀ e ∈ evs, ∃ buf, e.1 = Call.write 3 buf) ∧
      ((rc = 0 ∧ accepted_bytes evs = "1\n".toList) ∨ (rc = -1 ∧ ∃ e ∈ evs, e.2.val < 0)) :=
  write_all_terminates (chunked 1) 3 "1\n".toList 2 2 ⟨(), []⟩ (by decide) (by norm_num)
    (chunked_progress 1 (by decide)) (le_refl _)

/-! ## What each function adds to the log -/

theorem write_all_loop_log {σ : Type} (os : σ → Call → Ret × σ) (fd : Int) (s : CStr) (n : Nat) :
    ∀ (fuel off : Nat) (w : World σ) (rc : Int) (w' : World σ),
      write_all_loop os fd s n fuel off w = some (rc, w') →
      ∃ evs, w'.log = w.log ++ evs ∧
        (∀ e ∈ evs, ∃ k, e.1 = Call.write fd ((s.drop k).take (n - k))) ∧
        (rc = 0 ∨ rc = -1) ∧
        (rc = -1 ↔ ∃ e ∈ evs, e.2.val < 0) := by
  intro fuel
  induction fuel with
  | zero =>
    intro off w rc w' h
    by_cases hlt : off < n
    · simp [write_all_loop, hlt] at h
    · simp only [write_all_loop, hlt, if_false, Option.some.injEq, Prod.mk.injEq] at h
      obtain ⟨rfl, rfl⟩ := h
      exact ⟨[], by simp, by simp, Or.inl rfl, by simp⟩
  | succ fuel ih =>
    intro off w rc w' h
    by_cases hlt : off < n
    · simp only [write_all_loop, hlt, if_true] at h
      generalize hr : sys os (Call.write fd ((s.drop off).take (n - off))) w = r at h
      have hlog : r.2.log = w.log ++ [(Call.write fd ((s.drop off).take (n - off)), r.1)] := by
        rw [← hr]; exact sys_log _ _ _
      by_cases hneg : r.1.val < 0
      · simp only [hneg, if_true, Option.some.injEq, Prod.mk.injEq] at h
        obtain ⟨rfl, rfl⟩ := h
        exact ⟨_, hlog, by simp; exact ⟨off, rfl⟩, Or.inr rfl, by simp [hneg]⟩
      · simp only [hneg, if_false] at h
        obtain ⟨evs, hl, hall, hrc, hfail⟩ := ih _ _ _ _ h
        refine ⟨(Call.write fd ((s.drop off).take (n - off)), r.1) :: evs, by simp [hl, hlog],
          ?_, hrc, ?_⟩
        · intro e he
          rcases List.mem_cons.mp he with rfl | he
          · exact ⟨off, rfl⟩
          · exact hall e he
        · rw [hfail]
          simp [hneg]
    · simp only [write_all_loop, hlt, if_false, Option.some.injEq, Prod.mk.injEq] at h
      obtain ⟨rfl, rfl⟩ := h
      exact ⟨[], by simp, by simp, Or.inl rfl, by simp⟩

theorem write_all_log {σ : Type} (os : σ → Call → Ret × σ) (fuel : Nat) (fd : Int) (s : CStr)
    (n : Nat) (w w' : World σ) (rc : Int) (h : write_all os fuel fd s n w = some (rc, w')) :
    ∃ evs, w'.log = w.log ++ evs ∧
      (∀ e ∈ evs, ∃ k, e.1 = Call.write fd ((s.drop k).take (n - k))) ∧
      (rc = 0 ∨ rc = -1) ∧
      (rc = -1 ↔ ∃ e ∈ evs, e.2.val < 0) :=
  write_all_loop_log os fd s n fuel 0 w rc w' h

theorem extends_by_refl {σ : Type} (P : Call × Ret → Prop) (w : World σ) : extends_by P w w :=
  ⟨[], by simp, by simp⟩

theorem extends_by_sys {σ : Type} (P : Call × Ret → Prop) (os : σ → Call → Ret × σ) (c : Call)
    (w : World σ) (h : P (c, (sys os c w).1)) : extends_by P w (sys os c w).2 :=
  ⟨[(c, (sys os c w).1)], sys_log os c w, by simpa using h⟩

theorem extends_by_trans {σ : Type} {P : Call × Ret → Prop} {w1 w2 w3 : World σ}
    (h12 : extends_by P w1 w2) (h23 : extends_by P w2 w3) : extends_by P w1 w3 := by
  obtain ⟨e1, hl1, hp1⟩ := h12
  obtain ⟨e2, hl2, hp2⟩ := h23
  refine ⟨e1 ++ e2, by simp [hl2, hl1], ?_⟩
  intro e he
  rcases List.mem_append.mp he with he | he
  · exact hp1 e he
  · exact hp2 e he

theorem extends_by_mono {σ : Type} {P Q : Call × Ret → Prop} {w1 w2 : World σ}
    (hpq : ∀ e, P e → Q e) (h : extends_by P w1 w2) : extends_by Q w1 w2 := by
  obtain ⟨evs, hl, hp⟩ := h
  exact ⟨evs, hl, fun e he => hpq e (hp e he)⟩

theorem write_all_extends {σ : Type} (os : σ → Call → Ret × σ) (fuel : Nat) (fd : Int) (s : CStr)
    (n : Nat) (w w' : World σ) (rc : Int) (h : write_all os fuel fd s n w = some (rc, w')) :
    extends_by (fun e => on_fd fd e = true) w w' := by
  obtain ⟨evs, hl, hall, -, -⟩ := write_all_log os fuel fd s n w w' rc h
  refine ⟨evs, hl, ?_⟩
  intro e he
  obtain ⟨k, hk⟩ := hall e he
  simp [on_fd, hk]

theorem write_text_file_log {σ : Type} (os : σ → Call → Ret × σ) (fuel : Nat) (path text : CStr)
    (w w' : World σ) (rc : Int) (h : write_text_file os fuel path text w = some (rc, w')) :
    ∃ r tail, w'.log = w.log ++ (Call.open path (OpenHow.wronly_creat 0o644), r) :: tail ∧
      (∀ e ∈ tail, on_fd r.val e = true) ∧ (rc = 0 ∨ rc = -1) := by
  unfold write_text_file at h
  simp only at h
  generalize ho : sys os (Call.open path (OpenHow.wronly_creat 0o644)) w = o at h
  have hlo : o.2.log = w.log ++ [(Call.open path (OpenHow.wronly_creat 0o644), o.1)] := by
    rw [← ho]; exact sys_log _ _ _
  suffices hs : extends_by (fun e => on_fd o.1.val e = true) o.2 w' ∧ (rc = 0 ∨ rc = -1) by
    obtain ⟨⟨tail, hl, hp⟩, hrc⟩ := hs
    exact ⟨o.1, tail, by simp [hl, hlo], hp, hrc⟩
  by_cases hfd : o.1.val < 0
  · simp only [hfd, if_true, Option.some.injEq, Prod.mk.injEq] at h
    obtain ⟨rfl, rfl⟩ := h
    exact ⟨extends_by_refl _ _, Or.inr rfl⟩
  · simp only [hfd, if_false] at h
    have h1 : extends_by (fun e => on_fd o.1.val e = true) o.2
        (sys os (Call.lseek o.1.val 0) (sys os (Call.ftruncate o.1.val 0) o.2).2).2 :=
      extends_by_trans (extends_by_sys _ os _ _ (by simp [on_fd]))
        (extends_by_sys _ os _ _ (by simp [on_fd]))
    cases hw : write_all os fuel o.1.val text (strlen text)
        (sys os (Call.lseek o.1.val 0) (sys os (Call.ftruncate o.1.val 0) o.2).2).2 with
    | none => simp [hw] at h
    | some res =>
      obtain ⟨rc1, w1⟩ := res
      simp only [hw] at h
      have h2 := extends_by_trans h1 (write_all_extends os fuel _ _ _ _ _ _ hw)
      by_cases hrc : rc1 < 0
      · simp only [hrc, if_true, Option.some.injEq, Prod.mk.injEq] at h
        obtain ⟨rfl, rfl⟩ := h
        exact ⟨extends_by_trans h2 (extends_by_sys _ os _ _ (by simp [on_fd])), Or.inr rfl⟩
      · simp only [hrc, if_false, Option.some.injEq, Prod.mk.injEq] at h
        obtain ⟨rfl, rfl⟩ := h
        exact ⟨extends_by_trans h2 (extends_by_trans (extends_by_sys _ os _ _ (by simp [on_fd]))
          (extends_by_sys _ os _ _ (by simp [on_fd]))), Or.inl rfl⟩

theorem open_then_extends {σ : Type} (os : σ → Call → Ret × σ) (path : CStr) (how : OpenHow)
    (w w' : World σ)
    (h : extends_by (fun e => on_fd (sys os (Call.open path how) w).1.val e = true)
      (sys os (Call.open path how) w).2 w') :
    ∃ r tail, w'.log = w.log ++ (Call.open path how, r) :: tail ∧
      (∀ e ∈ tail, on_fd r.val e = true) := by
  obtain ⟨tail, hl, hp⟩ := h
  exact ⟨(sys os (Call.open path how) w).1, tail, by simp [hl, sys_log], hp⟩

theorem read_text_file_world {σ : Type} (os : σ → Call → Ret × σ) (path : CStr) (out : List Char)
    (cap : Nat) (w : World σ) (hfd : ¬ (sys os (Call.open path OpenHow.rdonly) w).1.val < 0) :
    (read_text_file os path out cap w).2 =
      (sys os (Call.close (sys os (Call.open path OpenHow.rdonly) w).1.val)
        (sys os (Call.read (sys os (Call.open path OpenHow.rdonly) w).1.val
            (if cap ≠ 0 then cap - 1 else 0))
          (sys os (Call.lseek (sys os (Call.open path OpenHow.rdonly) w).1.val 0)
            (sys os (Call.open path OpenHow.rdonly) w).2).2).2).2 := by
  unfold read_text_file
  simp only [hfd, if_false, apply_ite Prod.snd, ite_self]

theorem read_text_file_log {σ : Type} (os : σ → Call → Ret × σ) (path : CStr) (out : List Char)
    (cap : Nat) (w : World σ) :
    ∃ r tail, (read_text_file os path out cap w).2.log
        = w.log ++ (Call.open path OpenHow.rdonly, r) :: tail ∧
      (∀ e ∈ tail, on_fd r.val e = true) := by
  apply open_then_extends os
  by_cases hfd : (sys os (Call.open path OpenHow.rdonly) w).1.val < 0
  · have hw : (read_text_file os path out cap w).2 = (sys os (Call.open path OpenHow.rdonly) w).2 := by
      unfold read_text_file
      simp only [hfd, if_true]
    rw [hw]
    exact extends_by_refl _ _
  · rw [read_text_file_world os path out cap w hfd]
    exact extends_by_trans (extends_by_sys _ os _ _ (by simp [on_fd]))
      (extends_by_trans (extends_by_sys _ os _ _ (by simp [on_fd]))
        (extends_by_sys _ os _ _ (by simp [on_fd])))

theorem get_value_untouched {σ : Type} (os : σ → Call → Ret × σ) (base : CStr) (pin : Int)
    (out : Int) (b : List Char) (w : World σ) (h : (get_value os base pin out b w).1.1 ≠ 0) :
    (get_value os base pin out b w).1.2 = out := by
  unfold get_value at h ⊢
  simp only at h ⊢
  generalize read_text_file os _ b 16 w = r at h ⊢
  by_cases hc : r.1.1 = 0
  · simp [hc] at h
  · simp [hc]

theorem get_value_bit {σ : Type} (os : σ → Call → Ret × σ) (base : CStr) (pin : Int)
    (out : Int) (b : List Char) (w : World σ) (h : (get_value os base pin out b w).1.1 = 0) :
    (get_value os base pin out b w).1.2 = 0 ∨ (get_value os base pin out b w).1.2 = 1 := by
  unfold get_value at h ⊢
  simp only at h ⊢
  generalize read_text_file os _ b 16 w = r at h ⊢
  by_cases hc : r.1.1 = 0
  · by_cases hh : r.1.2.head? = some '1'
    · simp [hc, hh]
    · simp [hc, hh]
  · simp [hc] at h

theorem get_value_log {σ : Type} (os : σ → Call → Ret × σ) (base : CStr) (pin : Int)
    (out : Int) (b : List Char) (w : World σ) :
    ∃ r tail, (get_value os base pin out b w).2.log
        = w.log ++ (Call.open (snprintf BUF (base ++ "/gpio".toList ++ fmt_d pin ++ "/value".toList))
            OpenHow.rdonly, r) :: tail ∧
      (∀ e ∈ tail, on_fd r.val e = true) := by
  have h := read_text_file_log os
    (snprintf BUF (base ++ "/gpio".toList ++ fmt_d pin ++ "/value".toList)) b 16 w
  have hw : (get_value os base pin out b w).2 = (read_text_file os
      (snprintf BUF (base ++ "/gpio".toList ++ fmt_d pin ++ "/value".toList)) b 16 w).2 := by
    unfold get_value
    simp only [apply_ite Prod.snd, ite_self]
  rw [hw]
  exact h

theorem send_state_http_log {σ : Type} (os : σ → Call → Ret × σ) (base_url : CStr) (pin : Int)
    (state_high : Int) (w : World σ) :
    ∃ evs, (send_state_http os base_url pin state_high w).2.log = w.log ++ evs ∧
      evs ≠ [] ∧ (∀ e ∈ evs, is_curl e = true) ∧
      http_gets evs =
        (if (os w.st Call.curl_global_init).1.val = 0 ∧
            (os (os w.st Call.curl_global_init).2 Call.curl_easy_init).1.val ≠ 0
          then [some (snprintf 512 (base_url ++ "?pin=".toList ++ fmt_d pin ++ "&state=".toList ++
            (if state_high ≠ 0 then "high".toList else "low".toList)))]
          else []) := by
  unfold send_state_http
  simp only
  generalize snprintf 512 (base_url ++ "?pin=".toList ++ fmt_d pin ++ "&state=".toList ++
            (if state_high ≠ 0 then "high".toList else "low".toList)) = url
  have hg0 : (sys os Call.curl_global_init w).1.val = (os w.st Call.curl_global_init).1.val := rfl
  have he0 : (sys os Call.curl_easy_init (sys os Call.curl_global_init w).2).1.val
      = (os (os w.st Call.curl_global_init).2 Call.curl_easy_init).1.val := rfl
  by_cases hg : (os w.st Call.curl_global_init).1.val = 0
  · rw [if_neg (by rw [hg0]; simpa using hg)]
    by_cases he : (os (os w.st Call.curl_global_init).2 Call.curl_easy_init).1.val = 0
    · rw [if_pos (by rw [he0]; exact he)]
      refine Exists.intro ?evsa ⟨?h1a, ?h2a, ?h3a, ?h4a⟩
      case h1a =>
        simp only [sys_log, List.append_assoc]
        exact rfl
      case h2a => simp
      case h3a => simp [is_curl]
      case h4a => simp [http_gets, http_gets_from, hg, he]
    · rw [if_neg (by rw [he0]; exact he)]
      split
      · refine Exists.intro ?evsb ⟨?h1b, ?h2b, ?h3b, ?h4b⟩
        case h1b =>
          simp only [sys_log, List.append_assoc]
          exact rfl
        case h2b => simp
        case h3b => simp [is_curl]
        case h4b => simp [http_gets, http_gets_from, hg, he]
      · refine Exists.intro ?evsc ⟨?h1c, ?h2c, ?h3c, ?h4c⟩
        case h1c =>
          simp only [sys_log, List.append_assoc]
          exact rfl
        case h2c => simp
        case h3c => simp [is_curl]
        case h4c => simp [http_gets, http_gets_from, hg, he]
  · rw [if_pos (by rw [hg0]; simpa using hg)]
    refine Exists.intro ?evsd ⟨?h1d, ?h2d, ?h3d, ?h4d⟩
    case h1d =>
      simp only [sys_log]
      exact rfl
    case h2d => simp
    case h3d => simp [is_curl]
    case h4d => simp [http_gets, http_gets_from, hg]

theorem set_value_grows {σ : Type} (os : σ → Call → Ret × σ) (fuel : Nat) (base : CStr) (pin : Int)
    (v : Int) (w w' : World σ) (rc : Int) (h : set_value os fuel base pin v w = some (rc, w')) :
    w.log.length < w'.log.length := by
  obtain ⟨r, tail, hl, -, -⟩ := write_text_file_log os fuel _ _ w w' rc h
  simp [hl]

theorem get_value_grows {σ : Type} (os : σ → Call → Ret × σ) (base : CStr) (pin : Int)
    (out : Int) (b : List Char) (w : World σ) :
    w.log.length < (get_value os base pin out b w).2.log.length := by
  obtain ⟨r, tail, hl, -⟩ := get_value_log os base pin out b w
  simp [hl]

theorem send_state_http_grows {σ : Type} (os : σ → Call → Ret × σ) (base_url : CStr) (pin : Int)
    (state_high : Int) (w : World σ) :
    w.log.length < (send_state_http os base_url pin state_high w).2.log.length := by
  obtain ⟨evs, hl, hne, -, -⟩ := send_state_http_log os base_url pin state_high w
  have : 0 < evs.length := List.length_pos.mpr hne
  simp [hl, this]

theorem snprintf_fits (size : Nat) (s : CStr) (h : s.length ≤ size - 1) : snprintf size s = s :=
  List.take_of_length_le h

theorem fmt_d_length (pin : Int) (hlo : -2 ^ 31 ≤ pin) (hhi : pin < 2 ^ 31) :
    (fmt_d pin).length ≤ 11 := by
  unfold fmt_d
  cases pin with
  | ofNat m =>
    have hm : m < 10 ^ 10 := by
      have : (m : Int) < 2 ^ 31 := hhi
      omega
    have := Nat.repr_length m 10 (by decide) hm
    show (toString m).length ≤ 11
    simp only [toString]
    omega
  | negSucc m =>
    have hm : m + 1 < 10 ^ 10 := by
      have : -2 ^ 31 ≤ Int.negSucc m := hlo
      rw [Int.negSucc_eq] at this
      omega
    have := Nat.repr_length (m + 1) 10 (by decide) hm
    show ("-" ++ toString (m + 1)).length ≤ 11
    simp only [toString, String.length_append]
    have h1 : "-".length = 1 := rfl
    omega

theorem not_curl_of_on_fd (fd : Int) (e : Call × Ret) (h : on_fd fd e = true) :
    is_curl e = false := by
  obtain ⟨c, r⟩ := e
  cases c <;> simp_all [on_fd, is_curl]

theorem opened_paths_on_fd (fd : Int) (es : List (Call × Ret)) (h : ∀ e ∈ es, on_fd fd e = true) :
    opened_paths es = [] := by
  induction es with
  | nil => rfl
  | cons e es ih =>
    have he := h e (List.mem_cons_self _ _)
    have ih' := ih (fun x hx => h x (List.mem_cons_of_mem _ hx))
    obtain ⟨c, r⟩ := e
    cases c <;> simp_all [on_fd, opened_paths]

theorem http_gets_from_skip (f : Int → Option CStr) (xs ys : List (Call × Ret))
    (h : ∀ e ∈ xs, is_curl e = false) : http_gets_from f (xs ++ ys) = http_gets_from f ys := by
  induction xs with
  | nil => rfl
  | cons e xs ih =>
    have he := h e (List.mem_cons_self _ _)
    have ih' := ih (fun x hx => h x (List.mem_cons_of_mem _ hx))
    obtain ⟨c, r⟩ := e
    cases c <;> simp_all [is_curl, http_gets_from]

theorem write_text_file_quiet {σ : Type} (os : σ → Call → Ret × σ) (fuel : Nat) (path text : CStr)
    (w w' : World σ) (rc : Int) (h : write_text_file os fuel path text w = some (rc, w')) :
    extends_by (fun e => is_curl e = false) w w' := by
  obtain ⟨r, tail, hl, hp, -⟩ := write_text_file_log os fuel path text w w' rc h
  refine ⟨_, hl, ?_⟩
  intro e he
  rcases List.mem_cons.mp he with rfl | he
  · rfl
  · exact not_curl_of_on_fd _ _ (hp e he)

theorem get_value_quiet {σ : Type} (os : σ → Call → Ret × σ) (base : CStr) (pin : Int)
    (out : Int) (b : List Char) (w : World σ) :
    extends_by (fun e => is_curl e = false) w (get_value os base pin out b w).2 := by
  obtain ⟨r, tail, hl, hp⟩ := get_value_log os base pin out b w
  refine ⟨_, hl, ?_⟩
  intro e he
  rcases List.mem_cons.mp he with rfl | he
  · rfl
  · exact not_curl_of_on_fd _ _ (hp e he)

theorem export_if_needed_quiet {σ : Type} (os : σ → Call → Ret × σ) (fuel : Nat) (base : CStr)
    (pin : Int) (w w' : World σ) (rc : Int)
    (h : export_if_needed os fuel base pin w = some (rc, w')) :
    extends_by (fun e => is_curl e = false) w w' := by
  unfold export_if_needed at h
  simp only at h
  generalize snprintf BUF (base ++ "/gpio".toList ++ fmt_d pin) = dir at h
  generalize snprintf BUF (base ++ "/export".toList) = exp at h
  generalize snprintf 32 (fmt_d pin) = num at h
  have ha : extends_by (fun e => is_curl e = false) w (sys os (Call.access dir) w).2 :=
    extends_by_sys _ os _ _ rfl
  by_cases hacc : (sys os (Call.access dir) w).1.val = 0
  · simp only [hacc, if_true, Option.some.injEq, Prod.mk.injEq] at h
    obtain ⟨rfl, rfl⟩ := h
    exact ha
  · simp only [hacc, if_false] at h
    have ho := extends_by_trans ha
      (extends_by_sys (fun e => is_curl e = false) os (Call.open exp OpenHow.wronly)
        (sys os (Call.access dir) w).2 rfl)
    by_cases hfd : (sys os (Call.open exp OpenHow.wronly) (sys os (Call.access dir) w).2).1.val < 0
    · simp only [hfd, if_true, Option.some.injEq, Prod.mk.injEq] at h
      obtain ⟨rfl, rfl⟩ := h
      exact ho
    · simp only [hfd, if_false] at h
      cases hw : write_all os fuel
          (sys os (Call.open exp OpenHow.wronly) (sys os (Call.access dir) w).2).1.val num
          (strlen num) (sys os (Call.open exp OpenHow.wronly) (sys os (Call.access dir) w).2).2 with
      | none => simp [hw] at h
      | some res =>
        obtain ⟨rc1, w1⟩ := res
        simp only [hw] at h
        have hwq := extends_by_trans ho (extends_by_mono (not_curl_of_on_fd _)
          (write_all_extends os fuel _ _ _ _ _ _ hw))
        by_cases hrc : rc1 < 0
        · simp only [hrc, if_true, Option.some.injEq, Prod.mk.injEq] at h
          obtain ⟨rfl, rfl⟩ := h
          exact extends_by_trans hwq (extends_by_sys _ os (Call.close _) _ rfl)
        · simp only [hrc, if_false, Option.some.injEq, Prod.mk.injEq] at h
          obtain ⟨rfl, rfl⟩ := h
          exact extends_by_trans hwq (extends_by_trans (extends_by_sys _ os (Call.close _) _ rfl)
            (extends_by_sys _ os (Call.usleep _) _ rfl))

/-! ## The control sequence of `main` -/

/-- C1: the exit status as a function of the outcomes of the seven steps. Whatever
the return codes of `export_if_needed` (`rc1`), `set_direction` "in" (`rc2`), the first
`get_value` (`rc3`), the verification `get_value` (`rc6`) and `send_state_http` (`rc7`),
`main` returns, and its exit status is non-zero exactly when `set_direction` "out"
failed (`rc4 ≠ 0`), or it succeeded and `set_value` failed (`rc4 = 0` and `rc5 ≠ 0`).
The world at exit is the one after the last step made: `w4`, `w5` or `w7`. -/
theorem main_exit_status {σ : Type} (os : σ → Call → Ret × σ) (fuel : Nat)
    (pin_arg : Option Int) (url_arg env_base : Option CStr) (b1 b2 : List Char)
    (w w1 w2 w3 w4 w5 w6 w7 : World σ) (rc1 rc2 rc3 v3 rc4 rc5 rc6 v6 rc7 : Int)
    (h1 : export_if_needed os fuel (main_base env_base) (main_pin pin_arg) w = some (rc1, w1))
    (h2 : set_direction os fuel (main_base env_base) (main_pin pin_arg) "in".toList w1
      = some (rc2, w2))
    (h3 : get_value os (main_base env_base) (main_pin pin_arg) 0 b1 w2 = ((rc3, v3), w3))
    (h4 : set_direction os fuel (main_base env_base) (main_pin pin_arg) "out".toList w3
      = some (rc4, w4))
    (h5 : rc4 = 0 →
      set_value os fuel (main_base env_base) (main_pin pin_arg) 1 w4 = some (rc5, w5))
    (h6 : rc4 = 0 → rc5 = 0 →
      get_value os (main_base env_base) (main_pin pin_arg) 0 b2 w5 = ((rc6, v6), w6))
    (h7 : rc4 = 0 → rc5 = 0 →
      send_state_http os (main_http_base url_arg) (main_pin pin_arg) (if v6 ≠ 0 then 1 else 0) w6
        = (rc7, w7)) :
    ∃ status, main os fuel pin_arg url_arg env_base b1 b2 w
        = some (status, if rc4 ≠ 0 then w4 else if rc5 ≠ 0 then w5 else w7) ∧
      (status ≠ 0 ↔ (rc4 ≠ 0 ∨ (rc4 = 0 ∧ rc5 ≠ 0))) := by
  unfold main
  simp only [h1, h2, h3, h4]
  by_cases hc4 : rc4 = 0
  · simp only [hc4, ne_eq, not_true_eq_false, if_false, h5 hc4]
    by_cases hc5 : rc5 = 0
    · simp only [hc5, not_true_eq_false, if_false, h6 hc4 hc5, h7 hc4 hc5]
      exact ⟨0, rfl, by simp⟩
    · simp only [hc5, not_false_eq_true, if_true]
      exact ⟨1, rfl, by simp⟩
  · simp only [hc4, ne_eq, not_false_eq_true, if_true]
    exact ⟨1, rfl, by simp⟩

/-- C2: when `set_direction` "out" fails, `main` returns a non-zero exit status and the
world at exit is the world right after the failed call, log included: no call of any
kind was made after it. Every `set_value`, `get_value` and `send_state_http` call makes
the log longer, so none of the three was attempted. -/
theorem main_aborts_on_out_direction {σ : Type} (os : σ → Call → Ret × σ) (fuel : Nat)
    (pin_arg : Option Int) (url_arg env_base : Option CStr) (b1 b2 : List Char)
    (w w1 w2 w3 w4 : World σ) (rc1 rc2 rc3 v3 rc4 : Int)
    (h1 : export_if_needed os fuel (main_base env_base) (main_pin pin_arg) w = some (rc1, w1))
    (h2 : set_direction os fuel (main_base env_base) (main_pin pin_arg) "in".toList w1
      = some (rc2, w2))
    (h3 : get_value os (main_base env_base) (main_pin pin_arg) 0 b1 w2 = ((rc3, v3), w3))
    (h4 : set_direction os fuel (main_base env_base) (main_pin pin_arg) "out".toList w3
      = some (rc4, w4))
    (hfail : rc4 ≠ 0) :
    (∃ status, status ≠ 0 ∧ main os fuel pin_arg url_arg env_base b1 b2 w = some (status, w4)) ∧
    (∀ f v wa rc wb, set_value os f (main_base env_base) (main_pin pin_arg) v wa = some (rc, wb) →
      wa.log.length < wb.log.length) ∧
    (∀ out b wa, wa.log.length <
      (get_value os (main_base env_base) (main_pin pin_arg) out b wa).2.log.length) ∧
    (∀ s wa, wa.log.length <
      (send_state_http os (main_http_base url_arg) (main_pin pin_arg) s wa).2.log.length) := by
  refine ⟨⟨1, by decide, ?_⟩, ?_, ?_, ?_⟩
  · unfold main
    simp only [h1, h2, h3, h4, ne_eq, hfail, not_false_eq_true, if_true]
  · intro f v wa rc wb h
    exact set_value_grows os f _ _ v wa wb rc h
  · intro out b wa
    exact get_value_grows os _ _ out b wa
  · intro s wa
    exact send_state_http_grows os _ _ s wa

/-- C3: when `set_direction` "out" and `set_value` succeed and the verification
`get_value` fails, the value it leaves in `val_out` is the initial 0 (whatever the
first `get_value` found), `main` returns exit status 0, and the world at exit is the
world after exactly one `send_state_http` call, made right after the failed read with
`state_high = 0`. -/
theorem main_reports_low_on_failed_verify {σ : Type} (os : σ → Call → Ret × σ) (fuel : Nat)
    (pin_arg : Option Int) (url_arg env_base : Option CStr) (b1 b2 : List Char)
    (w w1 w2 w3 w4 w5 w6 : World σ) (rc1 rc2 rc3 v3 rc6 v6 : Int)
    (h1 : export_if_needed os fuel (main_base env_base) (main_pin pin_arg) w = some (rc1, w1))
    (h2 : set_direction os fuel (main_base env_base) (main_pin pin_arg) "in".toList w1
      = some (rc2, w2))
    (h3 : get_value os (main_base env_base) (main_pin pin_arg) 0 b1 w2 = ((rc3, v3), w3))
    (h4 : set_direction os fuel (main_base env_base) (main_pin pin_arg) "out".toList w3
      = some (0, w4))
    (h5 : set_value os fuel (main_base env_base) (main_pin pin_arg) 1 w4 = some (0, w5))
    (h6 : get_value os (main_base env_base) (main_pin pin_arg) 0 b2 w5 = ((rc6, v6), w6))
    (hfail : rc6 ≠ 0) :
    v6 = 0 ∧
    main os fuel pin_arg url_arg env_base b1 b2 w
      = some (0, (send_state_http os (main_http_base url_arg) (main_pin pin_arg) 0 w6).2) ∧
    w6.log.length <
      (send_state_http os (main_http_base url_arg) (main_pin pin_arg) 0 w6).2.log.length := by
  have hv : v6 = 0 := by
    have := get_value_untouched os (main_base env_base) (main_pin pin_arg) 0 b2 w5
      (by rw [h6]; exact hfail)
    rw [h6] at this
    exact this
  refine ⟨hv, ?_, send_state_http_grows os _ _ 0 w6⟩
  unfold main
  simp only [h1, h2, h3, h4, h5, h6, hv, ne_eq, not_true_eq_false, if_false]

/-- C1, at a concrete run: the export file cannot be opened, "out" is written, the
write of the level fails, and the exit status is 1. -/
theorem main_exit_status_witness :
    ∃ status, Option.map Prod.fst
        (main scripted 4 none none none [] [] ⟨script_value_write_fails, []⟩) = some status ∧
      status = 1 ∧
      (status ≠ 0 ↔ ((0 : Int) ≠ 0 ∨ ((0 : Int) = 0 ∧ (-1 : Int) ≠ 0))) := by
  obtain ⟨status, h, hiff⟩ := main_exit_status scripted 4 none none none [] []
    ⟨script_value_write_fails, []⟩ _ _ _ _ _ _ _ 0 0 0 0 0 (-1) _ _ _
    rfl rfl rfl rfl (fun _ => rfl) (fun _ _ => rfl) (fun _ _ => rfl)
  have h1 : Option.map Prod.fst
      (main scripted 4 none none none [] [] ⟨script_value_write_fails, []⟩) = some 1 := by
    decide
  refine ⟨status, by rw [h]; rfl, ?_, hiff⟩
  rw [h] at h1
  simpa using h1

/-- C2, at a concrete run: the direction file cannot be opened for "out"; the exit
status is not 0 and the log ends with that failed `open`, the twelfth call. -/
theorem main_aborts_on_out_direction_witness :
    (∃ status, status ≠ 0 ∧ Option.map Prod.fst
        (main scripted 4 none none none [] [] ⟨script_out_direction_fails, []⟩) = some status) ∧
    Option.map (fun r => (r.2.log.length, Option.map Prod.fst r.2.log.getLast?))
        (main scripted 4 none none none [] [] ⟨script_out_direction_fails, []⟩)
      = some (12, some (Call.open "/sys/class/gpio/gpio22/direction".toList
          (OpenHow.wronly_creat 0o644))) := by
  obtain ⟨⟨status, hne, h⟩, -⟩ := main_aborts_on_out_direction scripted 4 none none none [] []
    ⟨script_out_direction_fails, []⟩ _ _ _ _ 0 0 0 1 (-1) rfl rfl rfl rfl (by decide)
  exact ⟨⟨status, hne, by rw [h]; rfl⟩, by decide⟩

/-- C3, at a concrete run: the input read finds HIGH, the value file cannot be opened
for the verification read; the exit status is 0 and the one HTTP transfer of the run
goes to the URL with `state=low`. -/
theorem main_reports_low_on_failed_verify_witness :
    Option.map (fun r => (r.1, http_gets r.2.log))
        (main scripted 4 none none none [] [] ⟨script_verify_fails, []⟩)
      = some (0, [some "http://meinserver.de/gpio?pin=22&state=low".toList]) := by
  obtain ⟨-, h, -⟩ := main_reports_low_on_failed_verify scripted 4 none none none [] []
    ⟨script_verify_fails, []⟩ _ _ _ _ _ _ 0 0 0 1 (-1) 0 rfl rfl rfl rfl rfl rfl (by decide)
  rw [h]
  decide

set_option maxRecDepth 100000 in
/-- C4 as stated fails for a long base URL: with the base URL "http://h/aaa...a" of
511 bytes, in a run in which every step succeeds and the verification read finds HIGH,
the one HTTP transfer goes to the base URL itself; "?pin=22&state=high" does not fit
the 512-byte buffer of `send_state_http` and is cut off. -/
theorem main_http_get_url_cut_off :
    Option.map (fun r => (r.1, http_gets r.2.log))
        (main scripted 4 (some 22) (some ("http://h/".toList ++ List.replicate 502 'a')) none
          [] [] ⟨script_all_ok, []⟩)
      = some (0, [some ("http://h/".toList ++ List.replicate 502 'a')]) ∧
    "http://h/".toList ++ List.replicate 502 'a'
      ≠ "http://h/".toList ++ List.replicate 502 'a' ++ "?pin=22&state=high".toList := by
  constructor
  · decide
  · intro h
    have hlen := congrArg List.length h
    simp only [List.length_append, List.length_replicate] at hlen
    have h18 : ("?pin=22&state=high".toList).length = 18 := by decide
    omega

/-- C4, amended: in every run that is not aborted, when
`http_base ++ "?pin=" ++ decimal pin ++ "&state=" ++ s` is at most 511 bytes long, with
`s` "high" when the verification read succeeded and returned 1 and "low" otherwise,
`main` exits with status 0 and the calls of the run contain at most one HTTP transfer:
exactly one, to exactly that string, when `curl_global_init` returns 0 and
`curl_easy_init` returns a handle, and none otherwise. -/
theorem main_http_get_url {σ : Type} (os : σ → Call → Ret × σ) (fuel : Nat)
    (pin_arg : Option Int) (url_arg env_base : Option CStr) (b1 b2 : List Char)
    (w w1 w2 w3 w4 w5 w6 : World σ) (rc1 rc2 rc3 v3 rc6 v6 : Int)
    (h1 : export_if_needed os fuel (main_base env_base) (main_pin pin_arg) w = some (rc1, w1))
    (h2 : set_direction os fuel (main_base env_base) (main_pin pin_arg) "in".toList w1
      = some (rc2, w2))
    (h3 : get_value os (main_base env_base) (main_pin pin_arg) 0 b1 w2 = ((rc3, v3), w3))
    (h4 : set_direction os fuel (main_base env_base) (main_pin pin_arg) "out".toList w3
      = some (0, w4))
    (h5 : set_value os fuel (main_base env_base) (main_pin pin_arg) 1 w4 = some (0, w5))
    (h6 : get_value os (main_base env_base) (main_pin pin_arg) 0 b2 w5 = ((rc6, v6), w6))
    (hfit : (main_http_base url_arg ++ "?pin=".toList ++ fmt_d (main_pin pin_arg) ++
      "&state=".toList ++ (if rc6 = 0 ∧ v6 = 1 then "high".toList else "low".toList)).length
        ≤ 511) :
    ∃ wf evs, main os fuel pin_arg url_arg env_base b1 b2 w = some (0, wf) ∧
      wf.log = w.log ++ evs ∧
      http_gets evs =
        (if (os w6.st Call.curl_global_init).1.val = 0 ∧
            (os (os w6.st Call.curl_global_init).2 Call.curl_easy_init).1.val ≠ 0
          then [some (main_http_base url_arg ++ "?pin=".toList ++ fmt_d (main_pin pin_arg) ++
            "&state=".toList ++ (if rc6 = 0 ∧ v6 = 1 then "high".toList else "low".toList))]
          else []) := by
  have hstate : ((if v6 ≠ 0 then (1 : Int) else 0) ≠ 0) ↔ (rc6 = 0 ∧ v6 = 1) := by
    by_cases hrc : rc6 = 0
    · have := get_value_bit os (main_base env_base) (main_pin pin_arg) 0 b2 w5
        (by rw [h6]; exact hrc)
      rw [h6] at this
      rcases this with h0 | h1
      · simp only at h0
        simp [h0, hrc]
      · simp only at h1
        simp [h1, hrc]
    · have := get_value_untouched os (main_base env_base) (main_pin pin_arg) 0 b2 w5
        (by rw [h6]; exact hrc)
      rw [h6] at this
      simp only at this
      simp [this, hrc]
  have hq : extends_by (fun e => is_curl e = false) w w6 := by
    have q1 := export_if_needed_quiet os fuel _ _ _ _ _ h1
    have q2 := write_text_file_quiet os fuel _ _ _ _ _ h2
    have q3 := get_value_quiet os (main_base env_base) (main_pin pin_arg) 0 b1 w2
    rw [h3] at q3
    have q4 := write_text_file_quiet os fuel _ _ _ _ _ h4
    have q5 := write_text_file_quiet os fuel _ _ _ _ _ h5
    have q6 := get_value_quiet os (main_base env_base) (main_pin pin_arg) 0 b2 w5
    rw [h6] at q6
    exact extends_by_trans q1 (extends_by_trans q2 (extends_by_trans q3
      (extends_by_trans q4 (extends_by_trans q5 q6))))
  obtain ⟨pre, hpre, hquiet⟩ := hq
  obtain ⟨evs, hl, -, -, hget⟩ := send_state_http_log os (main_http_base url_arg)
    (main_pin pin_arg) (if v6 ≠ 0 then 1 else 0) w6
  refine ⟨(send_state_http os (main_http_base url_arg) (main_pin pin_arg)
    (if v6 ≠ 0 then 1 else 0) w6).2, pre ++ evs, ?_, ?_, ?_⟩
  · unfold main
    simp only [h1, h2, h3, h4, h5, h6, ne_eq, not_true_eq_false, if_false]
  · rw [hl, hpre, List.append_assoc]
  · rw [http_gets, http_gets_from_skip _ _ _ hquiet]
    rw [http_gets] at hget
    rw [hget]
    have hs : (if (if v6 ≠ 0 then (1 : Int) else 0) ≠ 0 then "high".toList else "low".toList)
        = (if rc6 = 0 ∧ v6 = 1 then "high".toList else "low".toList) := by
      by_cases hc : rc6 = 0 ∧ v6 = 1
      · rw [if_pos hc, if_pos (hstate.mpr hc)]
      · rw [if_neg hc, if_neg (fun h => hc (hstate.mp h))]
    rw [hs, snprintf_fits _ _ hfit]

/-- C4, amended, at the run of the end-to-end scenario: pin 22, the input read finds
LOW, the verification read finds HIGH, the transfer goes to the URL with `state=high`
and the exit status is 0. -/
theorem main_http_get_url_witness :
    ∃ wf evs, main scripted 4 (some 22) (some "http://localhost:8000/gpio".toList)
        (some "/tmp/mockgpio".toList) [] [] ⟨script_all_ok, []⟩ = some (0, wf) ∧
      wf.log = [] ++ evs ∧
      http_gets evs = [some "http://localhost:8000/gpio?pin=22&state=high".toList] := by
  obtain ⟨wf, evs, h, hl, hg⟩ := main_http_get_url scripted 4 (some 22)
    (some "http://localhost:8000/gpio".toList) (some "/tmp/mockgpio".toList) [] []
    ⟨script_all_ok, []⟩ _ _ _ _ _ _ 0 0 0 0 0 1 rfl rfl rfl rfl rfl rfl (by decide)
  exact ⟨wf, evs, h, hl, hg.trans (by decide)⟩

/-! ## The pin's files -/

theorem get_value_of_content {σ : Type} (os : σ → Call → Ret × σ) (base : CStr) (pin : Int)
    (out : Int) (b : List Char) (w w1 w2 w3 : World σ) (o l r : Ret) (content : List Char)
    (ho : sys os (Call.open (snprintf BUF (base ++ "/gpio".toList ++ fmt_d pin ++ "/value".toList))
      OpenHow.rdonly) w = (o, w1))
    (hfd : 0 ≤ o.val)
    (hl : sys os (Call.lseek o.val 0) w1 = (l, w2))
    (hr : sys os (Call.read o.val 15) w2 = (r, w3))
    (hn : 0 ≤ r.val)
    (hdata : r.data.take r.val.toNat = content.take r.val.toNat)
    (hsome : content ≠ [] → 0 < r.val) :
    (get_value os base pin out b w).1 = (0, if content.head? = some '1' then 1 else 0) := by
  unfold get_value read_text_file
  simp only [ho, hl, hr, show ¬ o.val < 0 by omega, show ¬ r.val < 0 by omega, if_false,
    show (if (16 : Nat) ≠ 0 then 16 - 1 else 0) = 15 by decide, ne_eq, not_true_eq_false,
    hdata]
  congr 1
  cases content with
  | nil => simp
  | cons c cs =>
    have hpos : 0 < r.val := hsome (by simp)
    obtain ⟨k, hk⟩ : ∃ k, r.val.toNat = k + 1 := ⟨r.val.toNat - 1, by omega⟩
    simp [hk]

/-- C5: when the pin's value file can be opened (`open` returns a descriptor) and read
(`read` returns a count `n ≥ 0`, having delivered the first `n` bytes of the file's
content, at least one unless the content is empty), `get_value` returns 0 and sets
`*out` to 1 if the first byte of the content is '1' and to 0 for every other content,
the empty one included. -/
theorem get_value_first_byte {σ : Type} (os : σ → Call → Ret × σ) (base : CStr) (pin : Int)
    (out : Int) (b : List Char) (w w1 w2 w3 : World σ) (o l r : Ret) (content : List Char)
    (ho : sys os (Call.open (snprintf BUF (base ++ "/gpio".toList ++ fmt_d pin ++ "/value".toList))
      OpenHow.rdonly) w = (o, w1))
    (hfd : 0 ≤ o.val)
    (hl : sys os (Call.lseek o.val 0) w1 = (l, w2))
    (hr : sys os (Call.read o.val 15) w2 = (r, w3))
    (hn : 0 ≤ r.val)
    (hdata : r.data.take r.val.toNat = content.take r.val.toNat)
    (hsome : content ≠ [] → 0 < r.val) :
    (get_value os base pin out b w).1 = (0, if content.head? = some '1' then 1 else 0) :=
  get_value_of_content os base pin out b w w1 w2 w3 o l r content ho hfd hl hr hn hdata hsome

/-- C5, at a concrete run: the value file holds "1\n" and `get_value` finds 1. -/
theorem get_value_first_byte_witness :
    (get_value scripted "/sys/class/gpio".toList 22 0 []
      ⟨[⟨3, []⟩, ⟨0, []⟩, ⟨2, "1\n".toList⟩, ⟨0, []⟩], []⟩).1
      = (0, if "1\n".toList.head? = some '1' then 1 else 0) :=
  get_value_first_byte scripted "/sys/class/gpio".toList 22 0 []
    ⟨[⟨3, []⟩, ⟨0, []⟩, ⟨2, "1\n".toList⟩, ⟨0, []⟩], []⟩ _ _ _ ⟨3, []⟩ ⟨0, []⟩ ⟨2, "1\n".toList⟩
    "1\n".toList rfl (by decide) rfl rfl (by decide) (by decide) (by decide)

set_option maxRecDepth 100000 in
/-- C9 as stated fails for a long base path: with the base "/aaa...a" of 256 bytes,
`set_direction` and `set_value` both open the path "/aaa...a" of 255 bytes, the first
255 bytes of the base: nothing more fits the `BUF`-byte buffer. The direction file and
the value file are then the same path, and it is not
`base ++ "/gpio22/direction"`. -/
theorem direction_and_value_path_coincide :
    Option.map (fun r => opened_paths r.2.log)
        (set_direction (chunked 4) 4 ('/' :: List.replicate 255 'a') 22 "out".toList ⟨(), []⟩)
      = some ['/' :: List.replicate 254 'a'] ∧
    Option.map (fun r => opened_paths r.2.log)
        (set_value (chunked 4) 4 ('/' :: List.replicate 255 'a') 22 1 ⟨(), []⟩)
      = some ['/' :: List.replicate 254 'a'] ∧
    '/' :: List.replicate 254 'a'
      ≠ ('/' :: List.replicate 255 'a') ++ "/gpio22/direction".toList := by
  refine ⟨by decide, by decide, ?_⟩
  intro h
  have hlen := congrArg List.length h
  simp only [List.length_append, List.length_cons, List.length_replicate] at hlen
  omega

theorem opened_paths_open_then_on_fd (path : CStr) (how : OpenHow) (r : Ret)
    (tail : List (Call × Ret)) (h : ∀ e ∈ tail, on_fd r.val e = true) :
    opened_paths ((Call.open path how, r) :: tail) = [path] := by
  simp [opened_paths, opened_paths_on_fd r.val tail h]

/-- C9, amended: when `base ++ "/gpio" ++ decimal pin ++ "/direction"` is at most 255
bytes long (it is built in a buffer of `BUF` = 256 bytes), every `set_direction` call
opens exactly that path and no other, every `set_value` and every `get_value` call
opens exactly `base ++ "/gpio" ++ decimal pin ++ "/value"` and no other, and the two
paths are different. -/
theorem pin_paths {σ : Type} (os : σ → Call → Ret × σ) (base : CStr) (pin : Int)
    (hfit : (base ++ "/gpio".toList ++ fmt_d pin ++ "/direction".toList).length ≤ 255) :
    (∀ fuel dir w rc w', set_direction os fuel base pin dir w = some (rc, w') →
      ∃ evs, w'.log = w.log ++ evs ∧
        opened_paths evs = [base ++ "/gpio".toList ++ fmt_d pin ++ "/direction".toList]) ∧
    (∀ fuel v w rc w', set_value os fuel base pin v w = some (rc, w') →
      ∃ evs, w'.log = w.log ++ evs ∧
        opened_paths evs = [base ++ "/gpio".toList ++ fmt_d pin ++ "/value".toList]) ∧
    (∀ out b w, ∃ evs, (get_value os base pin out b w).2.log = w.log ++ evs ∧
        opened_paths evs = [base ++ "/gpio".toList ++ fmt_d pin ++ "/value".toList]) ∧
    base ++ "/gpio".toList ++ fmt_d pin ++ "/direction".toList
      ≠ base ++ "/gpio".toList ++ fmt_d pin ++ "/value".toList := by
  have hd : snprintf BUF (base ++ "/gpio".toList ++ fmt_d pin ++ "/direction".toList)
      = base ++ "/gpio".toList ++ fmt_d pin ++ "/direction".toList :=
    snprintf_fits _ _ hfit
  have hv : snprintf BUF (base ++ "/gpio".toList ++ fmt_d pin ++ "/value".toList)
      = base ++ "/gpio".toList ++ fmt_d pin ++ "/value".toList := by
    apply snprintf_fits
    simp only [List.length_append, BUF] at hfit ⊢
    have h1 : ("/direction".toList).length = 10 := by decide
    have h2 : ("/value".toList).length = 6 := by decide
    omega
  refine ⟨?_, ?_, ?_, ?_⟩
  · intro fuel dir w rc w' h
    obtain ⟨r, tail, hl, hp, -⟩ := write_text_file_log os fuel _ _ w w' rc h
    rw [hd] at hl
    exact ⟨_, hl, opened_paths_open_then_on_fd _ _ r tail hp⟩
  · intro fuel v w rc w' h
    obtain ⟨r, tail, hl, hp, -⟩ := write_text_file_log os fuel _ _ w w' rc h
    rw [hv] at hl
    exact ⟨_, hl, opened_paths_open_then_on_fd _ _ r tail hp⟩
  · intro out b w
    obtain ⟨r, tail, hl, hp⟩ := get_value_log os base pin out b w
    rw [hv] at hl
    exact ⟨_, hl, opened_paths_open_then_on_fd _ _ r tail hp⟩
  · intro h
    have h' := List.append_cancel_left h
    exact absurd h' (by decide)

/-- C9, amended, at the default base and pin 22. -/
theorem pin_paths_witness :
    (∀ fuel dir w rc w', set_direction (chunked 4) fuel "/sys/class/gpio".toList 22 dir w
        = some (rc, w') →
      ∃ evs, w'.log = w.log ++ evs ∧
        opened_paths evs = ["/sys/class/gpio".toList ++ "/gpio".toList ++ fmt_d 22 ++
          "/direction".toList]) ∧
    (∀ fuel v w rc w', set_value (chunked 4) fuel "/sys/class/gpio".toList 22 v w
        = some (rc, w') →
      ∃ evs, w'.log = w.log ++ evs ∧
        opened_paths evs = ["/sys/class/gpio".toList ++ "/gpio".toList ++ fmt_d 22 ++
          "/value".toList]) ∧
    (∀ out b w, ∃ evs, (get_value (chunked 4) "/sys/class/gpio".toList 22 out b w).2.log
        = w.log ++ evs ∧
        opened_paths evs = ["/sys/class/gpio".toList ++ "/gpio".toList ++ fmt_d 22 ++
          "/value".toList]) ∧
    "/sys/class/gpio".toList ++ "/gpio".toList ++ fmt_d 22 ++ "/direction".toList
      ≠ "/sys/class/gpio".toList ++ "/gpio".toList ++ fmt_d 22 ++ "/value".toList :=
  pin_paths (chunked 4) "/sys/class/gpio".toList 22 (by decide)

/-! ## Export -/

set_option maxRecDepth 100000 in
/-- C7 as stated fails for a long base path: under a base of 253 bytes the directory
`<base>/gpio22` exists, yet `export_if_needed` returns -1. The two paths it builds are
cut to 255 bytes: it checks `<base>/g`, which does not exist, opens `<base>/e`, which
does, and the write of "22" to it fails. -/
theorem export_fails_though_pin_directory_exists :
    (memfs fs_long_base (Call.access (('/' :: List.replicate 252 'b') ++ "/gpio22".toList))).1.val = 0 ∧
    Option.map (fun r => (r.1, r.2.log.map Prod.fst))
        (export_if_needed memfs 4 ('/' :: List.replicate 252 'b') 22 ⟨fs_long_base, []⟩)
      = some (-1, [Call.access (('/' :: List.replicate 252 'b') ++ "/g".toList),
          Call.open (('/' :: List.replicate 252 'b') ++ "/e".toList) OpenHow.wronly,
          Call.write 3 "22".toList, Call.close 3]) := by
  constructor
  · decide
  · decide

/-- C7, amended: for a base and a pin (an `int`) whose two paths
`base ++ "/gpio" ++ decimal pin` and `base ++ "/export"` are at most 255 bytes long:
(1) when `access` finds the pin directory, `export_if_needed` returns 0 having made
that one call only, so it neither opens nor writes the export file; (2) when the
directory is absent and the export file cannot be opened, it returns 0; (3) whenever
it returns, it returns 0 or -1, and -1 exactly when the directory is absent, the
export file was opened, and a `write` of (the rest of) the decimal pin number to it
returned an error. -/
theorem export_if_needed_result {σ : Type} (os : σ → Call → Ret × σ) (fuel : Nat) (base : CStr)
    (pin : Int) (w : World σ) (hlo : -2 ^ 31 ≤ pin) (hhi : pin < 2 ^ 31)
    (hdir : (base ++ "/gpio".toList ++ fmt_d pin).length ≤ 255)
    (hexp : (base ++ "/export".toList).length ≤ 255) :
    ((sys os (Call.access (base ++ "/gpio".toList ++ fmt_d pin)) w).1.val = 0 →
      export_if_needed os fuel base pin w
        = some (0, (sys os (Call.access (base ++ "/gpio".toList ++ fmt_d pin)) w).2) ∧
      (sys os (Call.access (base ++ "/gpio".toList ++ fmt_d pin)) w).2.log
        = w.log ++ [(Call.access (base ++ "/gpio".toList ++ fmt_d pin),
            (sys os (Call.access (base ++ "/gpio".toList ++ fmt_d pin)) w).1)]) ∧
    ((sys os (Call.access (base ++ "/gpio".toList ++ fmt_d pin)) w).1.val ≠ 0 →
      (sys os (Call.open (base ++ "/export".toList) OpenHow.wronly)
        (sys os (Call.access (base ++ "/gpio".toList ++ fmt_d pin)) w).2).1.val < 0 →
      export_if_needed os fuel base pin w
        = some (0, (sys os (Call.open (base ++ "/export".toList) OpenHow.wronly)
            (sys os (Call.access (base ++ "/gpio".toList ++ fmt_d pin)) w).2).2)) ∧
    (∀ rc w', export_if_needed os fuel base pin w = some (rc, w') →
      (rc = 0 ∨ rc = -1) ∧
      (rc ≠ 0 ↔
        (sys os (Call.access (base ++ "/gpio".toList ++ fmt_d pin)) w).1.val ≠ 0 ∧
        0 ≤ (sys os (Call.open (base ++ "/export".toList) OpenHow.wronly)
          (sys os (Call.access (base ++ "/gpio".toList ++ fmt_d pin)) w).2).1.val ∧
        ∃ evs, w'.log = (sys os (Call.open (base ++ "/export".toList) OpenHow.wronly)
            (sys os (Call.access (base ++ "/gpio".toList ++ fmt_d pin)) w).2).2.log ++ evs ∧
          ∃ e ∈ evs, e.2.val < 0 ∧ ∃ k, e.1 = Call.write
            (sys os (Call.open (base ++ "/export".toList) OpenHow.wronly)
              (sys os (Call.access (base ++ "/gpio".toList ++ fmt_d pin)) w).2).1.val
            ((fmt_d pin).drop k))) := by
  have hD : snprintf BUF (base ++ "/gpio".toList ++ fmt_d pin)
      = base ++ "/gpio".toList ++ fmt_d pin := snprintf_fits _ _ hdir
  have hE : snprintf BUF (base ++ "/export".toList) = base ++ "/export".toList :=
    snprintf_fits _ _ hexp
  have hN : snprintf 32 (fmt_d pin) = fmt_d pin :=
    snprintf_fits _ _ (by have := fmt_d_length pin hlo hhi; omega)
  unfold export_if_needed
  simp only [hD, hE, hN]
  generalize base ++ "/gpio".toList ++ fmt_d pin = dir
  generalize base ++ "/export".toList = exp
  generalize fmt_d pin = num
  have hla := sys_log os (Call.access dir) w
  generalize sys os (Call.access dir) w = a at hla ⊢
  generalize ho : sys os (Call.open exp OpenHow.wronly) a.2 = o
  refine ⟨?_, ?_, ?_⟩
  · intro h
    exact ⟨by rw [if_pos h], hla⟩
  · intro ha hfd
    rw [if_neg ha, if_pos hfd]
  · intro rc w' h
    by_cases ha : a.1.val = 0
    · rw [if_pos ha] at h
      simp only [Option.some.injEq, Prod.mk.injEq] at h
      obtain ⟨rfl, rfl⟩ := h
      exact ⟨Or.inl rfl, by simp [ha]⟩
    · rw [if_neg ha] at h
      by_cases hfd : o.1.val < 0
      · rw [if_pos hfd] at h
        simp only [Option.some.injEq, Prod.mk.injEq] at h
        obtain ⟨rfl, rfl⟩ := h
        refine ⟨Or.inl rfl, ?_⟩
        constructor
        · intro h0
          exact absurd rfl h0
        · rintro ⟨-, hge, -⟩
          omega
      · rw [if_neg hfd] at h
        cases hw : write_all os fuel o.1.val num (strlen num) o.2 with
        | none => simp [hw] at h
        | some res =>
          obtain ⟨rc1, w1⟩ := res
          simp only [hw] at h
          obtain ⟨evs, hl, hall, hrc, hfail⟩ := write_all_log os fuel _ _ _ _ _ _ hw
          have hsuffix : ∀ e ∈ evs, ∃ k, e.1 = Call.write o.1.val (num.drop k) := by
            intro e he
            obtain ⟨k, hk⟩ := hall e he
            refine ⟨k, ?_⟩
            rw [hk, List.take_of_length_le]
            simp [strlen]
          by_cases hneg : rc1 < 0
          · rw [if_pos hneg] at h
            simp only [Option.some.injEq, Prod.mk.injEq] at h
            obtain ⟨rfl, rfl⟩ := h
            refine ⟨Or.inr rfl, ?_⟩
            have h1 : rc1 = -1 := by omega
            obtain ⟨e, he, hev⟩ := hfail.mp h1
            constructor
            · intro _
              refine ⟨ha, by omega, evs ++ [(Call.close o.1.val, (sys os (Call.close o.1.val) w1).1)],
                by rw [sys_log, hl, List.append_assoc], e, List.mem_append_left _ he, hev,
                hsuffix e he⟩
            · intro _
              decide
          · rw [if_neg hneg] at h
            simp only [Option.some.injEq, Prod.mk.injEq] at h
            obtain ⟨rfl, rfl⟩ := h
            refine ⟨Or.inl rfl, ?_⟩
            constructor
            · intro h0
              exact absurd rfl h0
            · rintro ⟨-, -, evs', hl', e, he, hev, k, hk⟩
              exfalso
              rw [sys_log, sys_log, hl, List.append_assoc, List.append_assoc] at hl'
              have heq := List.append_cancel_left hl'
              rw [← heq] at he
              rcases List.mem_append.mp he with he | he
              · have : rc1 = -1 := hfail.mpr ⟨e, he, hev⟩
                omega
              · simp only [List.singleton_append, List.mem_cons, List.mem_singleton] at he
                rcases he with rfl | rfl | he
                · simp at hk
                · simp at hk
                · simp at he

/-- C7, amended, at a concrete run: under `/tmp/mockgpio` the directory of pin 22
exists in the file store, and `export_if_needed` returns 0 after the one `access`
call. -/
theorem export_if_needed_result_witness :
    (memfs fs_mock (Call.access "/tmp/mockgpio/gpio22".toList)).1.val = 0 ∧
    export_if_needed memfs 4 "/tmp/mockgpio".toList 22 ⟨fs_mock, []⟩
      = some (0, ⟨fs_mock, [(Call.access "/tmp/mockgpio/gpio22".toList, ⟨0, []⟩)]⟩) :=
  ⟨by decide,
   ((export_if_needed_result memfs 4 "/tmp/mockgpio".toList 22 ⟨fs_mock, []⟩ (by decide)
      (by decide) (by decide) (by decide)).1 (by decide)).1⟩

/-! ## Round trip on the file store -/

theorem memfs_open_creat (s : FS) (path : CStr) (mode : Nat) :
    (memfs s (Call.open path (OpenHow.wronly_creat mode))).1.val = s.next_fd ∧
    (memfs s (Call.open path (OpenHow.wronly_creat mode))).2.fds s.next_fd = some ⟨path, 0⟩ ∧
    ∃ c, (memfs s (Call.open path (OpenHow.wronly_creat mode))).2.files path = some c := by
  cases hf : s.files path with
  | none => simp [memfs, hf]
  | some c => simp [memfs, hf]

theorem memfs_ftruncate_zero (s : FS) (fd : Int) (path : CStr) (pos : Nat)
    (h : s.fds fd = some ⟨path, pos⟩) :
    (memfs s (Call.ftruncate fd 0)).2.fds fd = some ⟨path, pos⟩ ∧
    (memfs s (Call.ftruncate fd 0)).2.files path = some [] := by
  simp [memfs, h, resize]

theorem memfs_lseek_zero (s : FS) (fd : Int) (path : CStr) (pos : Nat) (c : List Char)
    (h : s.fds fd = some ⟨path, pos⟩) (hc : s.files path = some c) :
    (memfs s (Call.lseek fd 0)).2.fds fd = some ⟨path, 0⟩ ∧
    (memfs s (Call.lseek fd 0)).2.files path = some c := by
  simp [memfs, h, hc]

theorem write_at_end (text : List Char) (off : Nat) (bytes : List Char)
    (hoff : off ≤ text.length) :
    write_at (text.take off) off bytes = text.take off ++ bytes := by
  have hlen : (text.take off).length = off := by simp [hoff]
  unfold write_at
  rw [hlen, Nat.sub_self, List.replicate_zero, List.append_nil,
    List.take_of_length_le (by omega : (text.take off).length ≤ off),
    List.drop_eq_nil_of_le (by omega : (text.take off).length ≤ off + bytes.length),
    List.append_nil]

theorem memfs_write (s : FS) (fd : Int) (path : CStr) (text : List Char) (off : Nat)
    (hoff : off ≤ text.length) (h : s.fds fd = some ⟨path, off⟩)
    (hc : s.files path = some (text.take off)) :
    (memfs s (Call.write fd (text.drop off))).1.val < 0 ∨
    ∃ k : Nat, (memfs s (Call.write fd (text.drop off))).1.val = k ∧ off + k ≤ text.length ∧
      (memfs s (Call.write fd (text.drop off))).2.fds fd = some ⟨path, off + k⟩ ∧
      (memfs s (Call.write fd (text.drop off))).2.files path = some (text.take (off + k)) := by
  cases hs : s.short with
  | nil =>
    right
    refine ⟨(text.drop off).length, ?_, ?_, ?_, ?_⟩
    · simp [memfs, h, hs]
    · simp; omega
    · simp [memfs, h, hs]
    · simp only [memfs, h, hs, hc, Option.getD_some, if_true, write_at_end text off _ hoff]
      rw [List.take_add, List.take_of_length_le (le_refl _)]
  | cons r rest =>
    by_cases hr : r < 0
    · left
      simp [memfs, h, hs, hr]
    · right
      refine ⟨((text.drop off).take r.toNat).length, ?_, ?_, ?_, ?_⟩
      · simp [memfs, h, hs, hr]
      · simp; omega
      · simp [memfs, h, hs, hr]
      · simp only [memfs, h, hs, hr, hc, Option.getD_some, if_true, if_false,
          write_at_end text off _ hoff]
        rw [List.take_add]
        congr 2
        simp

theorem memfs_write_all_loop (fd : Int) (path : CStr) (text : List Char) (n : Nat)
    (hn : n = text.length) (hsz : n < 2 ^ 64) :
    ∀ (fuel off : Nat) (w w' : World FS), off ≤ n →
      w.st.fds fd = some ⟨path, off⟩ → w.st.files path = some (text.take off) →
      write_all_loop memfs fd text n fuel off w = some (0, w') →
      w'.st.fds fd = some ⟨path, n⟩ ∧ w'.st.files path = some text := by
  intro fuel
  induction fuel with
  | zero =>
    intro off w w' hoff hfd hc h
    by_cases hlt : off < n
    · simp [write_all_loop, hlt] at h
    · simp only [write_all_loop, hlt, if_false, Option.some.injEq, Prod.mk.injEq, true_and] at h
      subst h
      have : off = n := by omega
      subst this
      exact ⟨hfd, by rw [hc, hn, List.take_length]⟩
  | succ fuel ih =>
    intro off w w' hoff hfd hc h
    by_cases hlt : off < n
    · have hbuf : (text.drop off).take (n - off) = text.drop off := by
        apply List.take_of_length_le
        simp [hn]
      simp only [write_all_loop, hlt, if_true, hbuf] at h
      rcases memfs_write w.st fd path text off (by omega) hfd hc with hneg | ⟨k, hk, hle, hfd', hc'⟩
      · rw [← sys_fst] at hneg
        simp [hneg] at h
      · have hval : (sys memfs (Call.write fd (text.drop off)) w).1.val = k := hk
        rw [if_neg (by omega), hval, Int.toNat_ofNat,
          Nat.mod_eq_of_lt (by simp only [SIZE_MOD]; omega)] at h
        exact ih (off + k) _ w' (by omega) hfd' hc' h
    · simp only [write_all_loop, hlt, if_false, Option.some.injEq, Prod.mk.injEq, true_and] at h
      subst h
      have : off = n := by omega
      subst this
      exact ⟨hfd, by rw [hc, hn, List.take_length]⟩

theorem memfs_fsync_files (s : FS) (fd : Int) : (memfs s (Call.fsync fd)).2.files = s.files := by
  cases h : s.fds fd <;> simp [memfs, h]

theorem memfs_close_files (s : FS) (fd : Int) : (memfs s (Call.close fd)).2.files = s.files := by
  cases h : s.fds fd <;> simp [memfs, h]

theorem memfs_write_text_file (fuel : Nat) (path text : CStr) (w w' : World FS)
    (hsz : text.length < 2 ^ 64)
    (h : write_text_file memfs fuel path text w = some (0, w')) :
    w'.st.files path = some text := by
  unfold write_text_file at h
  simp only at h
  obtain ⟨hfd, hfds, c, hc⟩ := memfs_open_creat w.st path 0o644
  have hfd' : (sys memfs (Call.open path (OpenHow.wronly_creat 0o644)) w).1.val = w.st.next_fd :=
    hfd
  rw [if_neg (by rw [hfd']; omega)] at h
  simp only [hfd'] at h
  have ht := memfs_ftruncate_zero _ _ path 0 hfds
  have hl := memfs_lseek_zero _ _ path 0 [] ht.1 ht.2
  cases hw : write_all memfs fuel (w.st.next_fd : Int) text (strlen text)
      (sys memfs (Call.lseek w.st.next_fd 0) (sys memfs (Call.ftruncate w.st.next_fd 0)
        (sys memfs (Call.open path (OpenHow.wronly_creat 0o644)) w).2).2).2 with
  | none => simp [hw] at h
  | some res =>
    obtain ⟨rc1, w1⟩ := res
    simp only [hw] at h
    by_cases hrc : rc1 < 0
    · simp [hrc] at h
    · rw [if_neg hrc] at h
      simp only [Option.some.injEq, Prod.mk.injEq, true_and] at h
      subst h
      obtain ⟨evs, -, -, hrc01, -⟩ := write_all_log memfs fuel _ _ _ _ _ _ hw
      have hrc0 : rc1 = 0 := by omega
      subst hrc0
      have hloop := memfs_write_all_loop (w.st.next_fd : Int) path text (strlen text) rfl hsz fuel 0
        _ w1 (Nat.zero_le _) hl.1 (by simpa using hl.2) hw
      show (memfs (memfs w1.st (Call.fsync _)).2 (Call.close _)).2.files path = some text
      rw [memfs_close_files, memfs_fsync_files]
      exact hloop.2

theorem memfs_open_rdonly (s : FS) (path : CStr) (c : List Char) (h : s.files path = some c) :
    (memfs s (Call.open path OpenHow.rdonly)).1.val = s.next_fd ∧
    (memfs s (Call.open path OpenHow.rdonly)).2.fds s.next_fd = some ⟨path, 0⟩ ∧
    (memfs s (Call.open path OpenHow.rdonly)).2.files path = some c := by
  simp [memfs, h]

theorem memfs_read (s : FS) (fd : Int) (path : CStr) (c : List Char) (count : Nat)
    (h : s.fds fd = some ⟨path, 0⟩) (hc : s.files path = some c) :
    (memfs s (Call.read fd count)).1 = ⟨(c.take count).length, c.take count⟩ := by
  simp [memfs, h, hc]

theorem memfs_get_value (base : CStr) (pin : Int) (out : Int) (b : List Char) (w : World FS)
    (c : List Char)
    (h : w.st.files (snprintf BUF (base ++ "/gpio".toList ++ fmt_d pin ++ "/value".toList))
      = some c) :
    (get_value memfs base pin out b w).1 = (0, if c.head? = some '1' then 1 else 0) := by
  obtain ⟨ho, hfds, hfiles⟩ := memfs_open_rdonly w.st _ c h
  have hl := memfs_lseek_zero _ _ _ 0 c hfds hfiles
  have hr := memfs_read _ (w.st.next_fd : Int) _ c 15 hl.1 hl.2
  refine get_value_of_content memfs base pin out b w _ _ _ _ _ _ c rfl ?_ rfl rfl ?_ ?_ ?_
  · show 0 ≤ (memfs w.st _).1.val
    rw [ho]
    omega
  · show 0 ≤ (memfs _ (Call.read (memfs w.st _).1.val 15)).1.val
    rw [ho, hr]
    exact Int.natCast_nonneg _
  · show (memfs _ (Call.read (memfs w.st _).1.val 15)).1.data.take
      (memfs _ (Call.read (memfs w.st _).1.val 15)).1.val.toNat
      = c.take (memfs _ (Call.read (memfs w.st _).1.val 15)).1.val.toNat
    rw [ho, hr]
    simp only [Int.toNat_ofNat, List.length_take]
    rw [List.take_take]
    congr 1
    omega
  · intro hne
    show 0 < (memfs _ (Call.read (memfs w.st _).1.val 15)).1.val
    rw [ho, hr]
    have : 0 < c.length := List.length_pos.mpr hne
    simp only [List.length_take]
    omega

/-- C6: round trip on the file store, which keeps what is written. For every base,
pin, level `v` in {0, 1}, every state of the store (whatever the value file held
before, whatever sizes its `write` calls accept), when `set_value` returns 0 the
pin's value file (the path that `set_value` and `get_value` build) holds exactly
"1\n" for `v = 1` and "0\n" for `v = 0`, and a `get_value` call made right after
returns 0 and sets `*out` to `v`. -/
theorem set_value_get_value_round_trip (fuel : Nat) (base : CStr) (pin : Int) (v : Int)
    (out : Int) (b : List Char) (w w1 : World FS) (hv : v = 0 ∨ v = 1)
    (h : set_value memfs fuel base pin v w = some (0, w1)) :
    w1.st.files (snprintf BUF (base ++ "/gpio".toList ++ fmt_d pin ++ "/value".toList))
      = some (if v = 1 then "1\n".toList else "0\n".toList) ∧
    (get_value memfs base pin out b w1).1 = (0, v) := by
  have hfile : w1.st.files (snprintf BUF (base ++ "/gpio".toList ++ fmt_d pin ++ "/value".toList))
      = some (if v ≠ 0 then "1\n".toList else "0\n".toList) := by
    apply memfs_write_text_file fuel _ _ w w1 _ h
    split <;> simp
  rcases hv with rfl | rfl
  · refine ⟨by simpa using hfile, ?_⟩
    rw [memfs_get_value base pin out b w1 _ hfile]
    simp
  · refine ⟨by simpa using hfile, ?_⟩
    rw [memfs_get_value base pin out b w1 _ hfile]
    simp

/-- C6, at a concrete run: the value file holds "garbage", the store accepts one byte
per `write`; after `set_value` with 1 the file holds "1\n" and `get_value` finds 1. -/
theorem set_value_get_value_round_trip_witness :
    ∃ w1, set_value memfs 4 "/tmp/mockgpio".toList 22 1 ⟨fs_mock, []⟩ = some (0, w1) ∧
      w1.st.files "/tmp/mockgpio/gpio22/value".toList = some "1\n".toList ∧
      (get_value memfs "/tmp/mockgpio".toList 22 0 [] w1).1 = (0, 1) := by
  have h := set_value_get_value_round_trip 4 "/tmp/mockgpio".toList 22 1 0 [] ⟨fs_mock, []⟩ _
    (Or.inr rfl) rfl
  exact ⟨_, rfl, h.1, h.2⟩

end GpioCurl
